import Mathlib

/-!
Shallow embedding of the 2D specular-reflection geometry engine
(`src/cpp/include/sim/vec2.hpp`, `src/cpp/include/sim/reflecting_world.hpp`,
`src/cpp/src/reflecting_world.cpp`).

Double-precision values are modelled as real numbers with exact arithmetic.
Fatal construction-time `assert`s in the builders are modelled by returning
`Except.error`; the advance algorithm itself has no error path, matching the
source.  The `while` loop of `advance_with_reflections` is modelled by
structural recursion on the remaining bounce budget
(`MAX_REFLECTIONS - bounces`).
-/

namespace sim

noncomputable section

/-- Two-dimensional double-precision vector (`Vec2` in `vec2.hpp`). -/
structure Vec2 where
  x : ℝ
  y : ℝ

/-- Vector addition, `vec2.hpp` line 50. -/
instance : Add Vec2 := ⟨fun a b => ⟨a.x + b.x, a.y + b.y⟩⟩

/-- Vector subtraction, `vec2.hpp` line 54. -/
instance : Sub Vec2 := ⟨fun a b => ⟨a.x - b.x, a.y - b.y⟩⟩

/-- Scalar multiplication, `vec2.hpp` lines 58 and 61. -/
instance : SMul ℝ Vec2 := ⟨fun s v => ⟨v.x * s, v.y * s⟩⟩

@[simp] theorem Vec2.add_x (a b : Vec2) : (a + b).x = a.x + b.x := rfl

@[simp] theorem Vec2.add_y (a b : Vec2) : (a + b).y = a.y + b.y := rfl

@[simp] theorem Vec2.sub_x (a b : Vec2) : (a - b).x = a.x - b.x := rfl

@[simp] theorem Vec2.sub_y (a b : Vec2) : (a - b).y = a.y - b.y := rfl

@[simp] theorem Vec2.smul_x (s : ℝ) (v : Vec2) : (s • v).x = v.x * s := rfl

@[simp] theorem Vec2.smul_y (s : ℝ) (v : Vec2) : (s • v).y = v.y * s := rfl

@[ext] theorem Vec2.ext {a b : Vec2} (hx : a.x = b.x) (hy : a.y = b.y) : a = b := by
  cases a; cases b; simp_all

/-- Dot product `x*r.x + y*r.y`, `vec2.hpp` line 79. -/
def Vec2.dot (a b : Vec2) : ℝ := a.x * b.x + a.y * b.y

/-- Euclidean norm `sqrt(x*x + y*y)`, `vec2.hpp` line 83. -/
def Vec2.norm (v : Vec2) : ℝ := Real.sqrt (v.x * v.x + v.y * v.y)

/-- Tolerance-guarded normalization, `vec2.hpp` lines 91-95: returns the zero
vector when the norm is at or below `eps` (the C++ default argument is
`1e-12`), otherwise divides by the norm. -/
def Vec2.normalized (v : Vec2) (eps : ℝ) : Vec2 :=
  if v.norm ≤ eps then ⟨0, 0⟩ else ⟨v.x / v.norm, v.y / v.norm⟩

/-- Specular reflection `v - 2 (v·n_hat) n_hat`, `vec2.hpp` lines 111-114. -/
def reflect_across_unit_normal (v n_hat : Vec2) : Vec2 :=
  v - (2 * v.dot n_hat) • n_hat

/-- Post-hit nudge and endpoint tolerance, `reflecting_world.hpp` line 88. -/
def EPS_POS : ℝ := 1 / 10 ^ 12

/-- Near-parallel / grazing threshold, `reflecting_world.hpp` line 89. -/
def EPS_DIR : ℝ := 1 / 10 ^ 12

/-- Per-advance bounce cap, `reflecting_world.hpp` line 90. -/
def MAX_REFLECTIONS : ℕ := 64

/-- Tie tolerance `1e-15` used by the hit comparator,
`reflecting_world.cpp` lines 272-273. -/
def TIE_EPS : ℝ := 1 / 10 ^ 15

/-- Cross product for 2D vectors, `reflecting_world.cpp` lines 49-51. -/
def cross2 (a b : Vec2) : ℝ := a.x * b.y - a.y * b.x

/-- File-scope helper `normalize`, `reflecting_world.cpp` lines 59-63:
unit-length copy of `v`, or `{0,0}` if `‖v‖ ≤ EPS_DIR`. -/
def normalize (v : Vec2) : Vec2 :=
  if v.norm ≤ EPS_DIR then ⟨0, 0⟩ else ⟨v.x / v.norm, v.y / v.norm⟩

/-- Straight wall segment with endpoints, outward normal and id,
`reflecting_world.hpp` lines 114-124.  `WallSegment.mk` is the public
constructor taking `(a, b, n_unit, id)`: it stores the supplied normal
verbatim. -/
structure WallSegment where
  p0 : Vec2
  p1 : Vec2
  n_hat : Vec2
  id : ℤ

/-- Builder `WallSegment::fromSegmentAutoNormal`, `reflecting_world.cpp`
lines 81-102.  The debug `assert` on the zero-tangent sentinel is modelled as
a construction error; the defensive unit-length recheck is implied by the
first guard and elided. -/
def WallSegment.fromSegmentAutoNormal (a b : Vec2) (inward : Bool) (id_ : ℤ) :
    Except String WallSegment :=
  let t_hat := normalize (b - a)
  if t_hat.x = 0 ∧ t_hat.y = 0 then Except.error "degenerate segment"
  else
    let n : Vec2 := if inward then ⟨t_hat.y, -t_hat.x⟩ else ⟨-t_hat.y, t_hat.x⟩
    Except.ok ⟨a, b, n, id_⟩

/-- Builder `ReflectingWorld::add_segment`, `reflecting_world.cpp`
lines 116-130.  The two `assert`s (degenerate segment, near-zero supplied
normal) are modelled as construction errors; on success the appended wall
segment is returned. -/
def ReflectingWorld.add_segment (a b n_unit : Vec2) (id : ℤ) :
    Except String WallSegment :=
  if |(b - a).x| ≤ EPS_DIR ∧ |(b - a).y| ≤ EPS_DIR then
    Except.error "degenerate segment"
  else
    let n_hat := normalize n_unit
    if n_hat.x = 0 ∧ n_hat.y = 0 then Except.error "near-zero normal"
    else Except.ok ⟨a, b, n_hat, id⟩

/-- Builder `ReflectingWorld::add_segment_auto`, `reflecting_world.cpp`
lines 137-142. -/
def ReflectingWorld.add_segment_auto (a b : Vec2) (inward : Bool) (id : ℤ) :
    Except String WallSegment :=
  WallSegment.fromSegmentAutoNormal a b inward id

/-- Builder `ReflectingWorld::add_inward_box`, `reflecting_world.cpp`
lines 155-171: four walls (bottom, right, top, left) with inward normals and
ids `base_id .. base_id+3`.  The bounds `assert` is modelled as a
construction error. -/
def ReflectingWorld.add_inward_box (xmin xmax ymin ymax : ℝ) (base_id : ℤ) :
    Except String (List WallSegment) :=
  if xmin < xmax ∧ ymin < ymax then do
    let w0 ← ReflectingWorld.add_segment ⟨xmin, ymin⟩ ⟨xmax, ymin⟩ ⟨0, 1⟩ base_id
    let w1 ← ReflectingWorld.add_segment ⟨xmax, ymin⟩ ⟨xmax, ymax⟩ ⟨-1, 0⟩ (base_id + 1)
    let w2 ← ReflectingWorld.add_segment ⟨xmax, ymax⟩ ⟨xmin, ymax⟩ ⟨0, -1⟩ (base_id + 2)
    let w3 ← ReflectingWorld.add_segment ⟨xmin, ymax⟩ ⟨xmin, ymin⟩ ⟨1, 0⟩ (base_id + 3)
    pure [w0, w1, w2, w3]
  else Except.error "invalid bounds"

/-- Builder `ReflectingWorld::add_half_plane_strip`, `reflecting_world.cpp`
lines 184-202: a long finite segment centered at `c·n̂` along the
perpendicular of `n̂`.  The near-zero-normal `assert` is modelled as a
construction error. -/
def ReflectingWorld.add_half_plane_strip (n_unit : Vec2) (c span : ℝ) (id : ℤ) :
    Except String WallSegment :=
  let n := normalize n_unit
  if n.x = 0 ∧ n.y = 0 then Except.error "near-zero normal"
  else
    let x0 : Vec2 := ⟨n.x * c, n.y * c⟩
    let t_hat : Vec2 := ⟨-n.y, n.x⟩
    let a : Vec2 := ⟨x0.x - 0.5 * span * t_hat.x, x0.y - 0.5 * span * t_hat.y⟩
    let b : Vec2 := ⟨x0.x + 0.5 * span * t_hat.x, x0.y + 0.5 * span * t_hat.y⟩
    ReflectingWorld.add_segment a b n id

/-- Result of the wall scan of one bounce iteration: the fields `best_t`,
`best_idx`, `hit_id`, `hit_n` of `reflecting_world.cpp` lines 242-245
bundled for the case `best_idx ≥ 0`. -/
structure HitCandidate where
  t : ℝ
  idx : ℕ
  id : ℤ
  n : Vec2

/-- Intersection test of one wall, `reflecting_world.cpp` lines 251-268:
returns the ray parameter `t` if the wall passes the near-parallel guard, the
`t`-window guard and the `u`-window guard, and `none` otherwise. -/
def validHit (p v : Vec2) (w : WallSegment) : Option ℝ :=
  let s := w.p1 - w.p0
  let denom := cross2 v s
  if |denom| ≤ EPS_DIR then none
  else
    let ap := w.p0 - p
    let t := cross2 ap s / denom
    if t ≤ EPS_POS ∨ 1 + EPS_POS < t then none
    else
      let u := cross2 ap v / denom
      if u < -EPS_POS ∨ 1 + EPS_POS < u then none
      else some t

/-- Comparator step of the scan, `reflecting_world.cpp` lines 270-279: a
valid candidate replaces the incumbent iff its `t` is smaller by more than
`1e-15`, or within `1e-15` with a smaller wall id, or within `1e-15` with an
equal id and a smaller insertion index.  The `none` incumbent corresponds to
`best_t = ∞`, `hit_id = -1`, `best_idx = -1`. -/
def considerWall (p v : Vec2) (acc : Option HitCandidate) (i : ℕ) (w : WallSegment) :
    Option HitCandidate :=
  match validHit p v w with
  | none => acc
  | some t =>
    match acc with
    | none => some ⟨t, i, w.id, w.n_hat⟩
    | some best =>
      if t < best.t - TIE_EPS ∨
          (|t - best.t| ≤ TIE_EPS ∧ (w.id < best.id ∨ (w.id = best.id ∧ i < best.idx))) then
        some ⟨t, i, w.id, w.n_hat⟩
      else acc

/-- Scan loop over the walls with running index, `reflecting_world.cpp`
lines 250-280. -/
def findHitAux (p v : Vec2) : List WallSegment → ℕ → Option HitCandidate → Option HitCandidate
  | [], _, acc => acc
  | w :: ws, i, acc => findHitAux p v ws (i + 1) (considerWall p v acc i w)

/-- Wall scan of one bounce iteration, `reflecting_world.cpp` lines 242-280. -/
def findHit (p v : Vec2) (walls : List WallSegment) : Option HitCandidate :=
  findHitAux p v walls 0 none

/-- Bounce loop of `advance_with_reflections`, `reflecting_world.cpp`
lines 240-312, by recursion on the remaining bounce budget
`MAX_REFLECTIONS - bounces`: scan for the earliest hit; if none, apply the
remaining displacement and stop; otherwise move to the contact point, nudge
along the hit normal, reflect the unconsumed displacement, and continue
unless the new displacement is negligible or the budget is exhausted. -/
def advanceLoop (walls : List WallSegment) : ℕ → Vec2 → Vec2 → Vec2
  | 0, p, _ => p
  | fuel + 1, p, v =>
    match findHit p v walls with
    | none => p + v
    | some h =>
      let p1 := p + h.t • v + EPS_POS • h.n
      let v1 := reflect_across_unit_normal ((1 - h.t) • v) h.n
      if |v1.x| ≤ EPS_DIR ∧ |v1.y| ≤ EPS_DIR then p1
      else advanceLoop walls fuel p1 v1

/-- Advance a point by a proposed displacement with specular reflections,
`reflecting_world.cpp` lines 230-316.  The early exit of lines 235-238 tests
both displacement components against `EPS_DIR`. -/
def advance_with_reflections (x d : Vec2) (walls : List WallSegment) : Vec2 :=
  if |d.x| ≤ EPS_DIR ∧ |d.y| ≤ EPS_DIR then x
  else advanceLoop walls MAX_REFLECTIONS x d

/-!
Basic unfolding lemmas for the advance algorithm.
-/

theorem advance_of_small (x d : Vec2) (walls : List WallSegment)
    (h : |d.x| ≤ EPS_DIR ∧ |d.y| ≤ EPS_DIR) :
    advance_with_reflections x d walls = x := if_pos h

theorem advance_of_not_small (x d : Vec2) (walls : List WallSegment)
    (h : ¬(|d.x| ≤ EPS_DIR ∧ |d.y| ≤ EPS_DIR)) :
    advance_with_reflections x d walls = advanceLoop walls MAX_REFLECTIONS x d := if_neg h

theorem advanceLoop_succ_none (walls : List WallSegment) (n : ℕ) (p v : Vec2)
    (h : findHit p v walls = none) : advanceLoop walls (n + 1) p v = p + v := by
  simp [advanceLoop, h]

theorem advanceLoop_succ_some (walls : List WallSegment) (n : ℕ) (p v : Vec2)
    (h : HitCandidate) (hh : findHit p v walls = some h) :
    advanceLoop walls (n + 1) p v =
      (if |(reflect_across_unit_normal ((1 - h.t) • v) h.n).x| ≤ EPS_DIR ∧
          |(reflect_across_unit_normal ((1 - h.t) • v) h.n).y| ≤ EPS_DIR then
        p + h.t • v + EPS_POS • h.n
      else advanceLoop walls n (p + h.t • v + EPS_POS • h.n)
        (reflect_across_unit_normal ((1 - h.t) • v) h.n)) := by
  simp [advanceLoop, hh]

theorem findHit_nil (p v : Vec2) : findHit p v [] = none := rfl

/-!
Helper lemmas about `normalize`.
-/

theorem normalize_of_le (v : Vec2) (h : v.norm ≤ EPS_DIR) : normalize v = ⟨0, 0⟩ :=
  if_pos h

theorem norm_zero_vec : Vec2.norm ⟨0, 0⟩ = 0 := by
  rw [Vec2.norm]
  norm_num [Real.sqrt_zero]

theorem norm_nonneg_vec (v : Vec2) : 0 ≤ v.norm := Real.sqrt_nonneg _

theorem norm_eq_zero_components (v : Vec2) (hx : v.x = 0) (hy : v.y = 0) : v.norm = 0 := by
  rw [Vec2.norm, hx, hy]
  norm_num [Real.sqrt_zero]

theorem normalize_norm_one (v : Vec2) (h : ¬ v.norm ≤ EPS_DIR) : (normalize v).norm = 1 := by
  have heps : (0 : ℝ) < EPS_DIR := by norm_num [EPS_DIR]
  have hpos : 0 < v.norm := heps.trans (not_le.mp h)
  have hne : v.norm ≠ 0 := ne_of_gt hpos
  have hS : v.norm * v.norm = v.x * v.x + v.y * v.y :=
    Real.mul_self_sqrt (by nlinarith [mul_self_nonneg v.x, mul_self_nonneg v.y])
  rw [normalize, if_neg h]
  show Real.sqrt (v.x / v.norm * (v.x / v.norm) + v.y / v.norm * (v.y / v.norm)) = 1
  have harg : v.x / v.norm * (v.x / v.norm) + v.y / v.norm * (v.y / v.norm) = 1 := by
    field_simp
    linarith [hS]
  rw [harg, Real.sqrt_one]

theorem normalize_ne_sentinel (n : Vec2) (h : ¬ n.norm ≤ EPS_DIR) :
    ¬((normalize n).x = 0 ∧ (normalize n).y = 0) := by
  rw [normalize, if_neg h]
  rintro ⟨hx, hy⟩
  have hne : n.norm ≠ 0 := by
    intro h0
    rw [h0] at h
    exact h (by norm_num [EPS_DIR])
  have hx0 : n.x = 0 := by
    rcases div_eq_zero_iff.mp hx with h' | h'
    · exact h'
    · exact absurd h' hne
  have hy0 : n.y = 0 := by
    rcases div_eq_zero_iff.mp hy with h' | h'
    · exact h'
    · exact absurd h' hne
  exact hne (norm_eq_zero_components n hx0 hy0)

theorem normalize_of_norm_one (v : Vec2) (h : v.norm = 1) : normalize v = v := by
  rw [normalize, if_neg (by rw [h]; norm_num [EPS_DIR])]
  rw [h]
  apply Vec2.ext
  · show v.x / 1 = v.x
    rw [div_one]
  · show v.y / 1 = v.y
    rw [div_one]

theorem add_segment_ok (a b n : Vec2) (id_ : ℤ)
    (h1 : ¬(|(b - a).x| ≤ EPS_DIR ∧ |(b - a).y| ≤ EPS_DIR))
    (h2 : ¬ n.norm ≤ EPS_DIR) :
    ReflectingWorld.add_segment a b n id_ = Except.ok ⟨a, b, normalize n, id_⟩ := by
  rw [ReflectingWorld.add_segment, if_neg h1]
  exact if_neg (normalize_ne_sentinel n h2)

theorem norm_perp_left (t : Vec2) : Vec2.norm ⟨-t.y, t.x⟩ = t.norm := by
  show Real.sqrt (-t.y * -t.y + t.x * t.x) = Real.sqrt (t.x * t.x + t.y * t.y)
  congr 1
  ring

theorem norm_perp_right (t : Vec2) : Vec2.norm ⟨t.y, -t.x⟩ = t.norm := by
  show Real.sqrt (t.y * t.y + -t.x * -t.x) = Real.sqrt (t.x * t.x + t.y * t.y)
  congr 1
  ring

theorem add_segment_ok_inv (a b n : Vec2) (id_ : ℤ) (w : WallSegment)
    (hok : ReflectingWorld.add_segment a b n id_ = Except.ok w) :
    ¬ n.norm ≤ EPS_DIR ∧ w = ⟨a, b, normalize n, id_⟩ := by
  by_cases h1 : |(b - a).x| ≤ EPS_DIR ∧ |(b - a).y| ≤ EPS_DIR
  · rw [ReflectingWorld.add_segment, if_pos h1] at hok
    cases hok
  · by_cases h2 : n.norm ≤ EPS_DIR
    · have hz : normalize n = ⟨0, 0⟩ := normalize_of_le n h2
      have herr : ReflectingWorld.add_segment a b n id_ = Except.error "near-zero normal" := by
        rw [ReflectingWorld.add_segment, if_neg h1]
        exact if_pos (by rw [hz]; exact ⟨rfl, rfl⟩)
      rw [herr] at hok
      cases hok
    · rw [add_segment_ok a b n id_ h1 h2] at hok
      cases hok
      exact ⟨h2, rfl⟩

theorem fromSegmentAutoNormal_ok_inv (a b : Vec2) (inward : Bool) (id_ : ℤ) (w : WallSegment)
    (hok : WallSegment.fromSegmentAutoNormal a b inward id_ = Except.ok w) :
    ¬ (b - a).norm ≤ EPS_DIR ∧
      w = ⟨a, b,
        if inward then (⟨(normalize (b - a)).y, -(normalize (b - a)).x⟩ : Vec2)
        else ⟨-(normalize (b - a)).y, (normalize (b - a)).x⟩, id_⟩ := by
  by_cases h2 : (b - a).norm ≤ EPS_DIR
  · have hz : normalize (b - a) = ⟨0, 0⟩ := normalize_of_le _ h2
    have herr : WallSegment.fromSegmentAutoNormal a b inward id_ =
        Except.error "degenerate segment" := by
      rw [WallSegment.fromSegmentAutoNormal]
      exact if_pos (by rw [hz]; exact ⟨rfl, rfl⟩)
    rw [herr] at hok
    cases hok
  · have hko : WallSegment.fromSegmentAutoNormal a b inward id_ =
        Except.ok ⟨a, b,
          if inward then (⟨(normalize (b - a)).y, -(normalize (b - a)).x⟩ : Vec2)
          else ⟨-(normalize (b - a)).y, (normalize (b - a)).x⟩, id_⟩ := by
      rw [WallSegment.fromSegmentAutoNormal]
      exact if_neg (normalize_ne_sentinel _ h2)
    rw [hko] at hok
    cases hok
    exact ⟨h2, rfl⟩

/-- C6: every scene builder surfaces a construction error synchronously at
the call site on a degenerate segment (endpoints coinciding within tolerance),
invalid box bounds, or a near-zero supplied normal; no wall segment is
returned for such inputs. -/
theorem builders_error_on_invalid_input :
    (∀ a b n id_, (|(b - a).x| ≤ EPS_DIR ∧ |(b - a).y| ≤ EPS_DIR) →
        ∃ e, ReflectingWorld.add_segment a b n id_ = Except.error e) ∧
    (∀ a b n id_, Vec2.norm n ≤ EPS_DIR →
        ∃ e, ReflectingWorld.add_segment a b n id_ = Except.error e) ∧
    (∀ a b inward id_, Vec2.norm (b - a) ≤ EPS_DIR →
        ∃ e, WallSegment.fromSegmentAutoNormal a b inward id_ = Except.error e) ∧
    (∀ a b inward id_, Vec2.norm (b - a) ≤ EPS_DIR →
        ∃ e, ReflectingWorld.add_segment_auto a b inward id_ = Except.error e) ∧
    (∀ xmin xmax ymin ymax base_id, (xmax ≤ xmin ∨ ymax ≤ ymin) →
        ∃ e, ReflectingWorld.add_inward_box xmin xmax ymin ymax base_id = Except.error e) ∧
    (∀ n c span id_, Vec2.norm n ≤ EPS_DIR →
        ∃ e, ReflectingWorld.add_half_plane_strip n c span id_ = Except.error e) := by
  have hauto : ∀ (a b : Vec2) (inward : Bool) (id_ : ℤ), Vec2.norm (b - a) ≤ EPS_DIR →
      ∃ e, WallSegment.fromSegmentAutoNormal a b inward id_ = Except.error e := by
    intro a b inward id_ h
    refine ⟨"degenerate segment", ?_⟩
    rw [WallSegment.fromSegmentAutoNormal]
    exact if_pos (by rw [normalize_of_le _ h]; exact ⟨rfl, rfl⟩)
  refine ⟨?_, ?_, hauto, ?_, ?_, ?_⟩
  · intro a b n id_ h
    exact ⟨"degenerate segment", by rw [ReflectingWorld.add_segment, if_pos h]⟩
  · intro a b n id_ h
    by_cases h1 : |(b - a).x| ≤ EPS_DIR ∧ |(b - a).y| ≤ EPS_DIR
    · exact ⟨"degenerate segment", by rw [ReflectingWorld.add_segment, if_pos h1]⟩
    · refine ⟨"near-zero normal", ?_⟩
      rw [ReflectingWorld.add_segment, if_neg h1]
      exact if_pos (by rw [normalize_of_le n h]; exact ⟨rfl, rfl⟩)
  · intro a b inward id_ h
    exact hauto a b inward id_ h
  · intro xmin xmax ymin ymax base_id h
    refine ⟨"invalid bounds", ?_⟩
    rw [ReflectingWorld.add_inward_box, if_neg]
    rintro ⟨hx, hy⟩
    rcases h with h | h
    · exact absurd hx (not_lt.mpr h)
    · exact absurd hy (not_lt.mpr h)
  · intro n c span id_ h
    refine ⟨"near-zero normal", ?_⟩
    rw [ReflectingWorld.add_half_plane_strip]
    exact if_pos (by rw [normalize_of_le n h]; exact ⟨rfl, rfl⟩)

/-- Witness for C6: concrete degenerate segments, a near-zero normal, invalid
box bounds and a near-zero half-plane normal each produce a construction
error. -/
theorem builders_error_on_invalid_input_witness :
    (∃ e, ReflectingWorld.add_segment ⟨0, 0⟩ ⟨0, 0⟩ ⟨0, 1⟩ 1 = Except.error e) ∧
    (∃ e, ReflectingWorld.add_segment ⟨0, 0⟩ ⟨1, 0⟩ ⟨0, 0⟩ 2 = Except.error e) ∧
    (∃ e, WallSegment.fromSegmentAutoNormal ⟨2, 3⟩ ⟨2, 3⟩ false 3 = Except.error e) ∧
    (∃ e, ReflectingWorld.add_segment_auto ⟨2, 3⟩ ⟨2, 3⟩ true 4 = Except.error e) ∧
    (∃ e, ReflectingWorld.add_inward_box 1 1 0 1 100 = Except.error e) ∧
    (∃ e, ReflectingWorld.add_half_plane_strip ⟨0, 0⟩ 0 (10 ^ 6) 200 = Except.error e) := by
  have hz : Vec2.norm ((⟨2, 3⟩ : Vec2) - ⟨2, 3⟩) ≤ EPS_DIR := by
    rw [norm_eq_zero_components _ (by simp) (by simp)]
    norm_num [EPS_DIR]
  have hz0 : Vec2.norm (⟨0, 0⟩ : Vec2) ≤ EPS_DIR := by
    rw [norm_zero_vec]
    norm_num [EPS_DIR]
  refine ⟨?_, ?_, ?_, ?_, ?_, ?_⟩
  · exact builders_error_on_invalid_input.1 _ _ _ _ (by constructor <;> norm_num [EPS_DIR, abs_le])
  · exact builders_error_on_invalid_input.2.1 _ _ _ _ hz0
  · exact builders_error_on_invalid_input.2.2.1 _ _ _ _ hz
  · exact builders_error_on_invalid_input.2.2.2.1 _ _ _ _ hz
  · exact builders_error_on_invalid_input.2.2.2.2.1 _ _ _ _ _ (Or.inl le_rfl)
  · exact builders_error_on_invalid_input.2.2.2.2.2 _ _ _ _ hz0

/-- C9: the public WallSegment constructor stores the supplied normal
verbatim without validation, so the unit-normal invariant is established
only by the builder paths: every segment returned by `add_segment`,
`fromSegmentAutoNormal` or `add_segment_auto` carries a unit normal. -/
theorem wall_normal_invariant :
    (∀ (a b n : Vec2) (id_ : ℤ), (WallSegment.mk a b n id_).n_hat = n) ∧
    (∀ (a b n : Vec2) (id_ : ℤ) (w : WallSegment),
        ReflectingWorld.add_segment a b n id_ = Except.ok w → w.n_hat.norm = 1) ∧
    (∀ (a b : Vec2) (inward : Bool) (id_ : ℤ) (w : WallSegment),
        WallSegment.fromSegmentAutoNormal a b inward id_ = Except.ok w →
          w.n_hat.norm = 1) ∧
    (∀ (a b : Vec2) (inward : Bool) (id_ : ℤ) (w : WallSegment),
        ReflectingWorld.add_segment_auto a b inward id_ = Except.ok w →
          w.n_hat.norm = 1) := by
  have hfrom : ∀ (a b : Vec2) (inward : Bool) (id_ : ℤ) (w : WallSegment),
      WallSegment.fromSegmentAutoNormal a b inward id_ = Except.ok w →
        w.n_hat.norm = 1 := by
    intro a b inward id_ w hok
    obtain ⟨h2, hw⟩ := fromSegmentAutoNormal_ok_inv a b inward id_ w hok
    rw [hw]
    cases inward
    · show Vec2.norm ⟨-(normalize (b - a)).y, (normalize (b - a)).x⟩ = 1
      rw [norm_perp_left]
      exact normalize_norm_one _ h2
    · show Vec2.norm ⟨(normalize (b - a)).y, -(normalize (b - a)).x⟩ = 1
      rw [norm_perp_right]
      exact normalize_norm_one _ h2
  refine ⟨fun a b n id_ => rfl, ?_, hfrom, ?_⟩
  · intro a b n id_ w hok
    obtain ⟨h2, hw⟩ := add_segment_ok_inv a b n id_ w hok
    rw [hw]
    exact normalize_norm_one n h2
  · intro a b inward id_ w hok
    exact hfrom a b inward id_ w hok

/-- Witness for C9: a directly-constructed segment keeps its non-unit normal
`(2,0)` verbatim, while the builder path normalizes the non-unit input
normal `(0,2)` down to a unit vector. -/
theorem wall_normal_invariant_witness :
    (WallSegment.mk ⟨0, 0⟩ ⟨1, 0⟩ ⟨2, 0⟩ 7).n_hat = (⟨2, 0⟩ : Vec2) ∧
    Vec2.norm (⟨2, 0⟩ : Vec2) ≠ 1 ∧
    (WallSegment.mk ⟨0, 0⟩ ⟨1, 0⟩ (normalize ⟨0, 2⟩) 5).n_hat.norm = 1 := by
  have hn2 : Vec2.norm (⟨0, 2⟩ : Vec2) = 2 := by
    show Real.sqrt (0 * 0 + 2 * 2) = 2
    rw [show (0 : ℝ) * 0 + 2 * 2 = 2 ^ 2 by norm_num, Real.sqrt_sq (by norm_num : (0:ℝ) ≤ 2)]
  refine ⟨wall_normal_invariant.1 ⟨0, 0⟩ ⟨1, 0⟩ ⟨2, 0⟩ 7, ?_, ?_⟩
  · have h20 : Vec2.norm (⟨2, 0⟩ : Vec2) = 2 := by
      show Real.sqrt (2 * 2 + 0 * 0) = 2
      rw [show (2 : ℝ) * 2 + 0 * 0 = 2 ^ 2 by norm_num, Real.sqrt_sq (by norm_num : (0:ℝ) ≤ 2)]
    rw [h20]
    norm_num
  · refine wall_normal_invariant.2.1 ⟨0, 0⟩ ⟨1, 0⟩ ⟨0, 2⟩ 5 _ ?_
    exact add_segment_ok ⟨0, 0⟩ ⟨1, 0⟩ ⟨0, 2⟩ 5
      (by norm_num [EPS_DIR, abs_le])
      (by rw [hn2]; norm_num [EPS_DIR])

/-!
Characterization lemmas for the wall scan.
-/

theorem considerWall_of_invalid (p v : Vec2) (acc : Option HitCandidate) (i : ℕ)
    (w : WallSegment) (h : validHit p v w = none) : considerWall p v acc i w = acc := by
  simp [considerWall, h]

theorem considerWall_of_valid_none (p v : Vec2) (i : ℕ) (w : WallSegment) (t : ℝ)
    (h : validHit p v w = some t) :
    considerWall p v none i w = some ⟨t, i, w.id, w.n_hat⟩ := by
  simp [considerWall, h]

theorem considerWall_of_valid_some (p v : Vec2) (best : HitCandidate) (i : ℕ)
    (w : WallSegment) (t : ℝ) (h : validHit p v w = some t) :
    considerWall p v (some best) i w =
      if t < best.t - TIE_EPS ∨
          (|t - best.t| ≤ TIE_EPS ∧ (w.id < best.id ∨ (w.id = best.id ∧ i < best.idx))) then
        some ⟨t, i, w.id, w.n_hat⟩
      else some best := by
  simp [considerWall, h]

theorem considerWall_eq_none_iff (p v : Vec2) (acc : Option HitCandidate) (i : ℕ)
    (w : WallSegment) :
    considerWall p v acc i w = none ↔ acc = none ∧ validHit p v w = none := by
  cases hv : validHit p v w with
  | none => simp [considerWall_of_invalid p v acc i w hv]
  | some t =>
    cases acc with
    | none => simp [considerWall_of_valid_none p v i w t hv]
    | some best =>
      rw [considerWall_of_valid_some p v best i w t hv]
      constructor
      · intro h
        by_cases hc : t < best.t - TIE_EPS ∨
            (|t - best.t| ≤ TIE_EPS ∧ (w.id < best.id ∨ (w.id = best.id ∧ i < best.idx)))
        · rw [if_pos hc] at h; cases h
        · rw [if_neg hc] at h; cases h
      · rintro ⟨h, -⟩
        cases h

theorem findHitAux_cons (p v : Vec2) (w : WallSegment) (ws : List WallSegment) (i : ℕ)
    (acc : Option HitCandidate) :
    findHitAux p v (w :: ws) i acc = findHitAux p v ws (i + 1) (considerWall p v acc i w) := rfl

theorem findHitAux_eq_none_iff (p v : Vec2) (ws : List WallSegment) :
    ∀ (i : ℕ) (acc : Option HitCandidate),
      findHitAux p v ws i acc = none ↔ acc = none ∧ ∀ w ∈ ws, validHit p v w = none := by
  induction ws with
  | nil => intro i acc; simp [findHitAux]
  | cons w ws ih =>
    intro i acc
    rw [findHitAux_cons, ih, considerWall_eq_none_iff]
    constructor
    · rintro ⟨⟨hacc, hw⟩, hall⟩
      refine ⟨hacc, ?_⟩
      intro w' hw'
      rcases List.mem_cons.mp hw' with h | h
      · rw [h]; exact hw
      · exact hall w' h
    · rintro ⟨hacc, hall⟩
      exact ⟨⟨hacc, hall w (List.mem_cons_self w ws)⟩,
        fun w' hw' => hall w' (List.mem_cons_of_mem w hw')⟩

theorem findHit_eq_none_iff (p v : Vec2) (walls : List WallSegment) :
    findHit p v walls = none ↔ ∀ w ∈ walls, validHit p v w = none := by
  rw [findHit, findHitAux_eq_none_iff]
  simp

/-- Predicate: the candidate `c` arises from some wall of `S`. -/
def CandOf (p v : Vec2) (S : List WallSegment) (c : HitCandidate) : Prop :=
  ∃ w ∈ S, validHit p v w = some c.t ∧ c.id = w.id ∧ c.n = w.n_hat

/-- Predicate: the candidate `c` has the smallest ray parameter among all
valid hits of `S`. -/
def MinOf (p v : Vec2) (S : List WallSegment) (c : HitCandidate) : Prop :=
  ∀ w ∈ S, ∀ t', validHit p v w = some t' → c.t ≤ t'

/-- Relation: every pair of valid hits of the two walls is separated by more
than the tie tolerance. -/
def SepHits (p v : Vec2) (w1 w2 : WallSegment) : Prop :=
  ∀ t1 t2, validHit p v w1 = some t1 → validHit p v w2 = some t2 → TIE_EPS < |t1 - t2|

theorem sepHits_symm (p v : Vec2) : Symmetric (SepHits p v) := by
  intro w1 w2 h t2 t1 h2 h1
  rw [abs_sub_comm]
  exact h t1 t2 h1 h2

theorem findHitAux_sound (p v : Vec2) (walls : List WallSegment) (ws : List WallSegment) :
    ∀ (i : ℕ) (acc : Option HitCandidate),
      (∀ w ∈ ws, w ∈ walls) →
      (∀ c, acc = some c → CandOf p v walls c) →
      ∀ c, findHitAux p v ws i acc = some c → CandOf p v walls c := by
  induction ws with
  | nil => intro i acc _ hacc c h; exact hacc c h
  | cons w ws ih =>
    intro i acc hsub hacc c h
    rw [findHitAux_cons] at h
    refine ih (i + 1) _ (fun w' hw' => hsub w' (List.mem_cons_of_mem w hw')) ?_ c h
    intro c' hc'
    cases hv : validHit p v w with
    | none =>
      rw [considerWall_of_invalid p v acc i w hv] at hc'
      exact hacc c' hc'
    | some t =>
      cases acc with
      | none =>
        rw [considerWall_of_valid_none p v i w t hv] at hc'
        cases hc'
        exact ⟨w, hsub w (List.mem_cons_self w ws), hv, rfl, rfl⟩
      | some best =>
        rw [considerWall_of_valid_some p v best i w t hv] at hc'
        by_cases hcond : t < best.t - TIE_EPS ∨
            (|t - best.t| ≤ TIE_EPS ∧ (w.id < best.id ∨ (w.id = best.id ∧ i < best.idx)))
        · rw [if_pos hcond] at hc'
          cases hc'
          exact ⟨w, hsub w (List.mem_cons_self w ws), hv, rfl, rfl⟩
        · rw [if_neg hcond] at hc'
          have hbc : c' = best := (Option.some.inj hc').symm
          subst hbc
          exact hacc c' rfl

theorem findHit_sound (p v : Vec2) (walls : List WallSegment) (c : HitCandidate)
    (h : findHit p v walls = some c) : CandOf p v walls c :=
  findHitAux_sound p v walls walls 0 none (fun _ hw => hw) (by intro c' hc'; cases hc') c h

theorem findHitAux_min (p v : Vec2) (ws : List WallSegment) :
    ∀ (S : List WallSegment) (i : ℕ) (acc : Option HitCandidate),
      List.Pairwise (SepHits p v) (S ++ ws) →
      (acc = none → ∀ w ∈ S, validHit p v w = none) →
      (∀ c, acc = some c → CandOf p v S c ∧ MinOf p v S c) →
      ∀ c, findHitAux p v ws i acc = some c → CandOf p v (S ++ ws) c ∧ MinOf p v (S ++ ws) c := by
  induction ws with
  | nil =>
    intro S i acc _ _ hsome c h
    rw [List.append_nil]
    exact hsome c h
  | cons w ws ih =>
    intro S i acc hpair hnone hsome c h
    rw [findHitAux_cons] at h
    have hassoc : S ++ w :: ws = (S ++ [w]) ++ ws := by simp
    rw [hassoc]
    rw [hassoc] at hpair
    refine ih (S ++ [w]) (i + 1) _ hpair ?_ ?_ c h
    · intro hnone' w' hw'
      obtain ⟨hacc0, hw0⟩ := (considerWall_eq_none_iff p v acc i w).mp hnone'
      rcases List.mem_append.mp hw' with h' | h'
      · exact hnone hacc0 w' h'
      · rw [List.mem_singleton.mp h']
        exact hw0
    · intro c' hc'
      cases hv : validHit p v w with
      | none =>
        rw [considerWall_of_invalid p v acc i w hv] at hc'
        obtain ⟨hcand, hmin⟩ := hsome c' hc'
        constructor
        · obtain ⟨w', hw', hrest⟩ := hcand
          exact ⟨w', List.mem_append_left _ hw', hrest⟩
        · intro w' hw' t' ht'
          rcases List.mem_append.mp hw' with h' | h'
          · exact hmin w' h' t' ht'
          · rw [List.mem_singleton.mp h'] at ht'
            rw [ht'] at hv
            cases hv
      | some t =>
        cases acc with
        | none =>
          rw [considerWall_of_valid_none p v i w t hv] at hc'
          cases hc'
          constructor
          · exact ⟨w, List.mem_append_right _ (List.mem_singleton.mpr rfl), hv, rfl, rfl⟩
          · intro w' hw' t' ht'
            rcases List.mem_append.mp hw' with h' | h'
            · rw [hnone rfl w' h'] at ht'
              cases ht'
            · rw [List.mem_singleton.mp h'] at ht'
              rw [ht'] at hv
              cases hv
              exact le_refl _
        | some best =>
          obtain ⟨hbcand, hbmin⟩ := hsome best rfl
          obtain ⟨wb, hwb, hvb, _, _⟩ := hbcand
          have hsep : SepHits p v wb w := by
            have hp := (List.pairwise_append.mp
              ((List.pairwise_append.mp hpair).1)).2.2
            exact hp wb hwb w (List.mem_singleton.mpr rfl)
          have hgap : TIE_EPS < |best.t - t| := hsep best.t t hvb hv
          have htie_false : ¬ |t - best.t| ≤ TIE_EPS := by
            rw [abs_sub_comm]
            exact not_le.mpr hgap
          rw [considerWall_of_valid_some p v best i w t hv] at hc'
          by_cases hcond : t < best.t - TIE_EPS ∨
              (|t - best.t| ≤ TIE_EPS ∧ (w.id < best.id ∨ (w.id = best.id ∧ i < best.idx)))
          · rw [if_pos hcond] at hc'
            cases hc'
            have hlt : t < best.t := by
              rcases hcond with h' | h'
              · have heps : (0:ℝ) < TIE_EPS := by norm_num [TIE_EPS]
                linarith
              · exact absurd h'.1 htie_false
            constructor
            · exact ⟨w, List.mem_append_right _ (List.mem_singleton.mpr rfl), hv, rfl, rfl⟩
            · intro w' hw' t' ht'
              rcases List.mem_append.mp hw' with h' | h'
              · exact le_of_lt (lt_of_lt_of_le hlt (hbmin w' h' t' ht'))
              · rw [List.mem_singleton.mp h'] at ht'
                rw [ht'] at hv
                cases hv
                exact le_refl _
          · rw [if_neg hcond] at hc'
            have hbc : best = c' := Option.some.inj hc'
            subst hbc
            have hble : best.t ≤ t := by
              by_contra hlt
              push_neg at hlt
              have hgt : TIE_EPS < best.t - t := by
                have habs : |best.t - t| = best.t - t := abs_of_pos (by linarith)
                rw [habs] at hgap
                exact hgap
              exact hcond (Or.inl (by linarith))
            constructor
            · obtain ⟨w', hw', hrest⟩ := hsome best rfl |>.1
              exact ⟨w', List.mem_append_left _ hw', hrest⟩
            · intro w' hw' t' ht'
              rcases List.mem_append.mp hw' with h' | h'
              · exact hbmin w' h' t' ht'
              · rw [List.mem_singleton.mp h'] at ht'
                rw [ht'] at hv
                cases hv
                exact hble

theorem findHit_min_of_sep (p v : Vec2) (walls : List WallSegment)
    (hsep : List.Pairwise (SepHits p v) walls) (c : HitCandidate)
    (h : findHit p v walls = some c) : CandOf p v walls c ∧ MinOf p v walls c := by
  have := findHitAux_min p v walls [] 0 none (by simpa using hsep)
    (by intro _ w hw; cases hw) (by intro c' hc'; cases hc') c h
  simpa using this

theorem findHit_sep_unique (p v : Vec2) (walls walls' : List WallSegment)
    (hperm : walls.Perm walls') (hsep : List.Pairwise (SepHits p v) walls) :
    Option.map (fun c => (c.t, c.n)) (findHit p v walls) =
      Option.map (fun c => (c.t, c.n)) (findHit p v walls') := by
  have hsep' : List.Pairwise (SepHits p v) walls' :=
    (hperm.pairwise_iff (fun h => sepHits_symm p v h)).mp hsep
  cases h1 : findHit p v walls with
  | none =>
    have h2 : findHit p v walls' = none := by
      rw [findHit_eq_none_iff]
      intro w hw
      exact (findHit_eq_none_iff p v walls).mp h1 w (hperm.mem_iff.mpr hw)
    rw [h2]
  | some c =>
    cases h2 : findHit p v walls' with
    | none =>
      obtain ⟨⟨w, hw, hv, -, -⟩, -⟩ := findHit_min_of_sep p v walls hsep c h1
      have hnone := (findHit_eq_none_iff p v walls').mp h2 w (hperm.mem_iff.mp hw)
      rw [hnone] at hv
      cases hv
    | some c' =>
      obtain ⟨⟨w, hw, hv, hid, hn⟩, hmin⟩ := findHit_min_of_sep p v walls hsep c h1
      obtain ⟨⟨w', hw', hv', hid', hn'⟩, hmin'⟩ := findHit_min_of_sep p v walls' hsep' c' h2
      have hw'w : w' ∈ walls := hperm.mem_iff.mpr hw'
      have hww' : w ∈ walls' := hperm.mem_iff.mp hw
      have hts : c.t = c'.t :=
        le_antisymm (hmin w' hw'w c'.t hv') (hmin' w hww' c.t hv)
      have hneq : c.n = c'.n := by
        by_cases hww : w = w'
        · rw [hn, hn', hww]
        · have hS : SepHits p v w w' :=
            List.Pairwise.forall (sepHits_symm p v) hsep hw hw'w hww
          have := hS c.t c'.t hv hv'
          rw [hts] at this
          simp at this
          have heps : (0:ℝ) < TIE_EPS := by norm_num [TIE_EPS]
          linarith
      simp only [Option.map_some']
      rw [hts, hneq]

/-- Trace predicate for C8: along the run of the bounce loop from `(p, v)`
with the given fuel, the valid hits of distinct walls are pairwise separated
by more than the tie tolerance at every bounce iteration. -/
def NoTiesRun (walls : List WallSegment) : ℕ → Vec2 → Vec2 → Prop
  | 0, _, _ => True
  | n + 1, p, v =>
    List.Pairwise (SepHits p v) walls ∧
    ∀ h, findHit p v walls = some h →
      ¬(|(reflect_across_unit_normal ((1 - h.t) • v) h.n).x| ≤ EPS_DIR ∧
        |(reflect_across_unit_normal ((1 - h.t) • v) h.n).y| ≤ EPS_DIR) →
      NoTiesRun walls n (p + h.t • v + EPS_POS • h.n)
        (reflect_across_unit_normal ((1 - h.t) • v) h.n)

theorem advanceLoop_perm (walls walls' : List WallSegment) (hperm : walls.Perm walls') :
    ∀ (n : ℕ) (p v : Vec2), NoTiesRun walls n p v →
      advanceLoop walls n p v = advanceLoop walls' n p v := by
  intro n
  induction n with
  | zero => intro p v _; rfl
  | succ n ih =>
    intro p v hnt
    obtain ⟨hsep, hnext⟩ := hnt
    have hmap := findHit_sep_unique p v walls walls' hperm hsep
    cases h1 : findHit p v walls with
    | none =>
      rw [h1] at hmap
      have h2 : findHit p v walls' = none := by
        cases h2 : findHit p v walls' with
        | none => rfl
        | some c' => rw [h2] at hmap; cases hmap
      rw [advanceLoop_succ_none walls n p v h1, advanceLoop_succ_none walls' n p v h2]
    | some h =>
      rw [h1] at hmap
      cases h2 : findHit p v walls' with
      | none => rw [h2] at hmap; cases hmap
      | some h' =>
        rw [h2] at hmap
        simp only [Option.map_some'] at hmap
        have hp := Option.some.inj hmap
        rw [Prod.mk.injEq] at hp
        obtain ⟨ht, hn⟩ := hp
        rw [advanceLoop_succ_some walls n p v h h1,
          advanceLoop_succ_some walls' n p v h' h2, ← ht, ← hn]
        by_cases hsmall : |(reflect_across_unit_normal ((1 - h.t) • v) h.n).x| ≤ EPS_DIR ∧
            |(reflect_across_unit_normal ((1 - h.t) • v) h.n).y| ≤ EPS_DIR
        · rw [if_pos hsmall, if_pos hsmall]
        · rw [if_neg hsmall, if_neg hsmall]
          exact ih _ _ (hnext h h1 hsmall)

/-- C8: the advance algorithm is deterministic.  It is a pure function of
(position, displacement, scene), so identical inputs give identical outputs;
and permuting the insertion order of the walls does not change the result
when, at every bounce iteration of the run, no two valid candidate hit
parameters of distinct walls lie within the `1e-15` tie tolerance of each
other. -/
theorem advance_deterministic (x d : Vec2) (walls walls' : List WallSegment) :
    advance_with_reflections x d walls = advance_with_reflections x d walls ∧
    (walls.Perm walls' → NoTiesRun walls MAX_REFLECTIONS x d →
      advance_with_reflections x d walls = advance_with_reflections x d walls') := by
  refine ⟨rfl, ?_⟩
  intro hperm hnt
  by_cases hsmall : |d.x| ≤ EPS_DIR ∧ |d.y| ≤ EPS_DIR
  · rw [advance_of_small x d walls hsmall, advance_of_small x d walls' hsmall]
  · rw [advance_of_not_small x d walls hsmall, advance_of_not_small x d walls' hsmall]
    exact advanceLoop_perm walls walls' hperm MAX_REFLECTIONS x d hnt

theorem findHitAux_nil (p v : Vec2) (i : ℕ) (acc : Option HitCandidate) :
    findHitAux p v [] i acc = acc := rfl

/-- Witness for C8 at a concrete two-wall scene (vertical walls at `x = 1/4`
and `x = 3/4`) whose hit parameters `1/8` and `5/8` are far outside the tie
tolerance: swapping the insertion order leaves the result unchanged. -/
theorem advance_deterministic_witness :
    advance_with_reflections ⟨1/8, 1/2⟩ ⟨1, 0⟩
        [⟨⟨1/4, 0⟩, ⟨1/4, 1⟩, ⟨-1, 0⟩, 0⟩, ⟨⟨3/4, 0⟩, ⟨3/4, 1⟩, ⟨-1, 0⟩, 1⟩] =
      advance_with_reflections ⟨1/8, 1/2⟩ ⟨1, 0⟩
        [⟨⟨3/4, 0⟩, ⟨3/4, 1⟩, ⟨-1, 0⟩, 1⟩, ⟨⟨1/4, 0⟩, ⟨1/4, 1⟩, ⟨-1, 0⟩, 0⟩] := by
  have hA : validHit ⟨1/8, 1/2⟩ ⟨1, 0⟩ ⟨⟨1/4, 0⟩, ⟨1/4, 1⟩, ⟨-1, 0⟩, 0⟩ = some (1/8) := by
    rw [validHit]
    norm_num [cross2, EPS_DIR, EPS_POS, abs_le]
  have hB : validHit ⟨1/8, 1/2⟩ ⟨1, 0⟩ ⟨⟨3/4, 0⟩, ⟨3/4, 1⟩, ⟨-1, 0⟩, 1⟩ = some (5/8) := by
    rw [validHit]
    norm_num [cross2, EPS_DIR, EPS_POS, abs_le]
  have hA2 : validHit ⟨1/4 - 1/10^12, 1/2⟩ ⟨-7/8, 0⟩ ⟨⟨1/4, 0⟩, ⟨1/4, 1⟩, ⟨-1, 0⟩, 0⟩ = none := by
    rw [validHit]
    norm_num [cross2, EPS_DIR, EPS_POS, abs_le]
  have hB2 : validHit ⟨1/4 - 1/10^12, 1/2⟩ ⟨-7/8, 0⟩ ⟨⟨3/4, 0⟩, ⟨3/4, 1⟩, ⟨-1, 0⟩, 1⟩ = none := by
    rw [validHit]
    norm_num [cross2, EPS_DIR, EPS_POS, abs_le]
  have hFH : findHit ⟨1/8, 1/2⟩ ⟨1, 0⟩
      [⟨⟨1/4, 0⟩, ⟨1/4, 1⟩, ⟨-1, 0⟩, 0⟩, ⟨⟨3/4, 0⟩, ⟨3/4, 1⟩, ⟨-1, 0⟩, 1⟩] =
      some ⟨1/8, 0, 0, ⟨-1, 0⟩⟩ := by
    rw [findHit, findHitAux_cons, considerWall_of_valid_none _ _ _ _ _ hA]
    dsimp only
    rw [findHitAux_cons, considerWall_of_valid_some _ _ _ _ _ _ hB]
    rw [if_neg (by norm_num [TIE_EPS, abs_le])]
    rw [findHitAux_nil]
  have hFH2 : findHit ⟨1/4 - 1/10^12, 1/2⟩ ⟨-7/8, 0⟩
      [⟨⟨1/4, 0⟩, ⟨1/4, 1⟩, ⟨-1, 0⟩, 0⟩, ⟨⟨3/4, 0⟩, ⟨3/4, 1⟩, ⟨-1, 0⟩, 1⟩] = none := by
    rw [findHit, findHitAux_cons, considerWall_of_invalid _ _ _ _ _ hA2,
      findHitAux_cons, considerWall_of_invalid _ _ _ _ _ hB2, findHitAux_nil]
  refine (advance_deterministic ⟨1/8, 1/2⟩ ⟨1, 0⟩ _ _).2 (List.Perm.swap _ _ _) ?_
  refine ⟨?_, ?_⟩
  · refine List.Pairwise.cons ?_ ?_
    · intro b hb
      rw [List.mem_singleton] at hb
      subst hb
      intro t1 t2 h1 h2
      rw [hA] at h1
      rw [hB] at h2
      obtain rfl := Option.some.inj h1
      obtain rfl := Option.some.inj h2
      rw [lt_abs]
      right
      norm_num [TIE_EPS]
    · simp
  · intro h hfind hns
    rw [hFH] at hfind
    have hcand := Option.some.inj hfind
    subst hcand
    dsimp only at hns ⊢
    have hp1 : (⟨1/8, 1/2⟩ : Vec2) + (1/8 : ℝ) • (⟨1, 0⟩ : Vec2) + EPS_POS • (⟨-1, 0⟩ : Vec2) =
        (⟨1/4 - 1/10^12, 1/2⟩ : Vec2) := by
      apply Vec2.ext <;> norm_num [EPS_POS]
    have hv1 : reflect_across_unit_normal ((1 - (1/8 : ℝ)) • ⟨1, 0⟩) ⟨-1, 0⟩ =
        (⟨-7/8, 0⟩ : Vec2) := by
      apply Vec2.ext <;>
        simp only [reflect_across_unit_normal, Vec2.dot, Vec2.sub_x, Vec2.sub_y,
          Vec2.smul_x, Vec2.smul_y] <;>
        norm_num
    rw [hp1, hv1]
    refine ⟨?_, ?_⟩
    · refine List.Pairwise.cons ?_ ?_
      · intro b hb
        rw [List.mem_singleton] at hb
        subst hb
        intro t1 t2 h1 h2
        rw [hA2] at h1
        cases h1
      · simp
    · intro h' hfind2
      rw [hFH2] at hfind2
      cases hfind2

/-- Relation for C4: every pair of valid hits of the two walls lies within
the tie tolerance. -/
def TiedHits (p v : Vec2) (w1 w2 : WallSegment) : Prop :=
  ∀ t1 t2, validHit p v w1 = some t1 → validHit p v w2 = some t2 → |t1 - t2| ≤ TIE_EPS

/-- Selection specification for C4 under all-tied candidates: the candidate
comes from the earliest-inserted wall among those with the lowest id; every
valid wall inserted before it has a strictly larger id, every valid wall
inserted after it has an id at least as large. -/
def TiedSel (p v : Vec2) (S : List WallSegment) (c : HitCandidate) : Prop :=
  ∃ pre w post, S = pre ++ w :: post ∧ validHit p v w = some c.t ∧
    c.id = w.id ∧ c.n = w.n_hat ∧ c.idx = pre.length ∧
    (∀ w' ∈ pre, ∀ t', validHit p v w' = some t' → c.id < w'.id) ∧
    (∀ w' ∈ post, ∀ t', validHit p v w' = some t' → c.id ≤ w'.id)

theorem findHitAux_tied (p v : Vec2) (ws : List WallSegment) :
    ∀ (S : List WallSegment) (acc : Option HitCandidate),
      List.Pairwise (TiedHits p v) (S ++ ws) →
      (acc = none → ∀ w ∈ S, validHit p v w = none) →
      (∀ c, acc = some c → TiedSel p v S c) →
      ∀ c, findHitAux p v ws S.length acc = some c → TiedSel p v (S ++ ws) c := by
  induction ws with
  | nil =>
    intro S acc _ _ hsome c h
    rw [findHitAux_nil] at h
    rw [List.append_nil]
    exact hsome c h
  | cons w ws ih =>
    intro S acc hpair hnone hsome c h
    rw [findHitAux_cons] at h
    have hassoc : S ++ w :: ws = (S ++ [w]) ++ ws := by simp
    rw [hassoc]
    rw [hassoc] at hpair
    have hlen : (S ++ [w]).length = S.length + 1 := by simp
    rw [← hlen] at h
    refine ih (S ++ [w]) _ hpair ?_ ?_ c h
    · intro hnone' w' hw'
      obtain ⟨hacc0, hw0⟩ := (considerWall_eq_none_iff p v acc S.length w).mp hnone'
      rcases List.mem_append.mp hw' with h' | h'
      · exact hnone hacc0 w' h'
      · rw [List.mem_singleton.mp h']
        exact hw0
    · intro c' hc'
      cases hv : validHit p v w with
      | none =>
        rw [considerWall_of_invalid p v acc S.length w hv] at hc'
        obtain ⟨pre, wc, post, hdec, hvc, hid, hn, hidx, hpre, hpost⟩ := hsome c' hc'
        refine ⟨pre, wc, post ++ [w], ?_, hvc, hid, hn, hidx, hpre, ?_⟩
        · rw [hdec]
          simp
        · intro w' hw' t' ht'
          rcases List.mem_append.mp hw' with h' | h'
          · exact hpost w' h' t' ht'
          · rw [List.mem_singleton.mp h', hv] at ht'
            cases ht'
      | some t =>
        cases acc with
        | none =>
          rw [considerWall_of_valid_none p v S.length w t hv] at hc'
          have hcc := Option.some.inj hc'
          subst hcc
          refine ⟨S, w, [], rfl, hv, rfl, rfl, rfl, ?_, ?_⟩
          · intro w' hw' t' ht'
            rw [hnone rfl w' hw'] at ht'
            cases ht'
          · intro w' hw'
            exact absurd hw' (List.not_mem_nil w')
        | some best =>
          obtain ⟨pre, wc, post, hdec, hvc, hid, hn, hidx, hpre, hpost⟩ := hsome best rfl
          have hwcmem : wc ∈ S := by
            rw [hdec]
            exact List.mem_append_right _ (List.mem_cons_self wc post)
          have htied : TiedHits p v wc w := by
            have hp := (List.pairwise_append.mp ((List.pairwise_append.mp hpair).1)).2.2
            exact hp wc hwcmem w (List.mem_singleton.mpr rfl)
          have htt : |best.t - t| ≤ TIE_EPS := htied best.t t hvc hv
          have hidxlt : best.idx < S.length := by
            rw [hidx, hdec]
            simp only [List.length_append, List.length_cons]
            omega
          rw [considerWall_of_valid_some p v best S.length w t hv] at hc'
          by_cases hcond : t < best.t - TIE_EPS ∨
              (|t - best.t| ≤ TIE_EPS ∧
                (w.id < best.id ∨ (w.id = best.id ∧ S.length < best.idx)))
          case pos =>
            have hwid : w.id < best.id := by
              rcases hcond with h' | ⟨-, h'⟩
              · exfalso
                have hd : best.t - t ≤ TIE_EPS := le_trans (le_abs_self _) htt
                linarith
              · rcases h' with h' | ⟨-, h'⟩
                · exact h'
                · exact absurd h' (not_lt.mpr (le_of_lt hidxlt))
            rw [if_pos hcond] at hc'
            have hcc := Option.some.inj hc'
            subst hcc
            refine ⟨S, w, [], rfl, hv, rfl, rfl, rfl, ?_, ?_⟩
            · intro w' hw' t' ht'
              rw [hdec] at hw'
              rcases List.mem_append.mp hw' with h' | h'
              · exact lt_trans hwid (hpre w' h' t' ht')
              · rcases List.mem_cons.mp h' with h'' | h''
                · rw [h'', ← hid]
                  exact hwid
                · exact lt_of_lt_of_le hwid (hpost w' h'' t' ht')
            · intro w' hw'
              exact absurd hw' (List.not_mem_nil w')
          case neg =>
            have hble : best.id ≤ w.id := by
              by_contra hgt
              push_neg at hgt
              refine hcond (Or.inr ⟨?_, Or.inl hgt⟩)
              rw [abs_sub_comm]
              exact htt
            rw [if_neg hcond] at hc'
            have hcc : best = c' := Option.some.inj hc'
            subst hcc
            refine ⟨pre, wc, post ++ [w], ?_, hvc, hid, hn, hidx, hpre, ?_⟩
            · rw [hdec]
              simp
            · intro w' hw' t' ht'
              rcases List.mem_append.mp hw' with h' | h'
              · exact hpost w' h' t' ht'
              · rw [List.mem_singleton.mp h']
                exact hble

theorem findHit_tied (p v : Vec2) (walls : List WallSegment)
    (htied : List.Pairwise (TiedHits p v) walls) (c : HitCandidate)
    (h : findHit p v walls = some c) : TiedSel p v walls c := by
  have := findHitAux_tied p v walls [] none (by simpa using htied)
    (by intro _ w hw; cases hw) (by intro c' hc'; cases hc') c h
  simpa using this

/-- C4 counterexample: three parallel walls at `x = 1/2`, `x = 1/2 + 0.5e-15`
and `x = 1/2 + 1.2e-15` with ids `9`, `1`, `0` (in insertion order).  The
greedy tie-chain walks from the first to the third candidate, so the scan
selects the wall with `t = 1/2 + 1.2e-15`, although the candidate with
`t = 1/2` is smaller by more than the tie tolerance — the selected hit is
not the candidate with the smallest `t`. -/
theorem earliest_hit_selection_counterexample :
    findHit ⟨0, 0⟩ ⟨1, 0⟩
        [⟨⟨1/2, -1⟩, ⟨1/2, 1⟩, ⟨-1, 0⟩, 9⟩,
         ⟨⟨1/2 + 1/(2 * 10^15), -1⟩, ⟨1/2 + 1/(2 * 10^15), 1⟩, ⟨-1, 0⟩, 1⟩,
         ⟨⟨1/2 + 6/(5 * 10^15), -1⟩, ⟨1/2 + 6/(5 * 10^15), 1⟩, ⟨-1, 0⟩, 0⟩] =
      some ⟨1/2 + 6/(5 * 10^15), 2, 0, ⟨-1, 0⟩⟩ ∧
    validHit ⟨0, 0⟩ ⟨1, 0⟩ ⟨⟨1/2, -1⟩, ⟨1/2, 1⟩, ⟨-1, 0⟩, 9⟩ = some (1/2) ∧
    (1/2 : ℝ) < (1/2 + 6/(5 * 10^15)) - TIE_EPS := by
  have hA : validHit ⟨0, 0⟩ ⟨1, 0⟩ ⟨⟨1/2, -1⟩, ⟨1/2, 1⟩, ⟨-1, 0⟩, 9⟩ = some (1/2) := by
    rw [validHit]
    norm_num [cross2, EPS_DIR, EPS_POS, abs_le]
  have hB : validHit ⟨0, 0⟩ ⟨1, 0⟩
      ⟨⟨1/2 + 1/(2 * 10^15), -1⟩, ⟨1/2 + 1/(2 * 10^15), 1⟩, ⟨-1, 0⟩, 1⟩ =
      some (1/2 + 1/(2 * 10^15)) := by
    rw [validHit]
    norm_num [cross2, EPS_DIR, EPS_POS, abs_le]
  have hC : validHit ⟨0, 0⟩ ⟨1, 0⟩
      ⟨⟨1/2 + 6/(5 * 10^15), -1⟩, ⟨1/2 + 6/(5 * 10^15), 1⟩, ⟨-1, 0⟩, 0⟩ =
      some (1/2 + 6/(5 * 10^15)) := by
    rw [validHit]
    norm_num [cross2, EPS_DIR, EPS_POS, abs_le]
  refine ⟨?_, hA, by norm_num [TIE_EPS]⟩
  rw [findHit, findHitAux_cons, considerWall_of_valid_none _ _ _ _ _ hA]
  dsimp only
  rw [findHitAux_cons, considerWall_of_valid_some _ _ _ _ _ _ hB,
    if_pos (by norm_num [TIE_EPS, abs_le])]
  dsimp only
  rw [findHitAux_cons, considerWall_of_valid_some _ _ _ _ _ _ hC,
    if_pos (by norm_num [TIE_EPS, abs_le])]
  rw [findHitAux_nil]

/-- C4 (amended): the scan is a greedy left-to-right pass whose tie window is
not transitive, so the selected hit need not have the globally smallest `t`.
What holds is: (i) when all valid candidates are pairwise separated by more
than `1e-15`, the selected hit has the smallest `t` among all valid
candidates; and (ii) when all valid candidates are pairwise within `1e-15`,
the selected hit comes from the earliest-inserted wall among those of lowest
wall id — every valid wall inserted before it has a strictly larger id and
every valid wall inserted after it has an id at least as large. -/
theorem earliest_hit_selection (p v : Vec2) (walls : List WallSegment) :
    (List.Pairwise (SepHits p v) walls →
      ∀ c, findHit p v walls = some c →
        ∀ w ∈ walls, ∀ t', validHit p v w = some t' → c.t ≤ t') ∧
    (List.Pairwise (TiedHits p v) walls →
      ∀ c, findHit p v walls = some c → TiedSel p v walls c) := by
  constructor
  · intro hsep c hc
    exact (findHit_min_of_sep p v walls hsep c hc).2
  · intro htied c hc
    exact findHit_tied p v walls htied c hc

/-- Witness for the amended C4 theorem: a separated two-wall scene where the
selected `t = 1/8` is at most the other candidate's `5/8`, and a fully tied
two-wall scene (both walls at `x = 1/2`, ids `9` then `1`) where the
lower-id wall is selected. -/
theorem earliest_hit_selection_witness :
    (1/8 : ℝ) ≤ 5/8 ∧
    TiedSel ⟨0, 0⟩ ⟨1, 0⟩
      [⟨⟨1/2, -1⟩, ⟨1/2, 1⟩, ⟨-1, 0⟩, 9⟩, ⟨⟨1/2, -1⟩, ⟨1/2, 1⟩, ⟨-1, 0⟩, 1⟩]
      ⟨1/2, 1, 1, ⟨-1, 0⟩⟩ := by
  have hA : validHit ⟨1/8, 1/2⟩ ⟨1, 0⟩ ⟨⟨1/4, 0⟩, ⟨1/4, 1⟩, ⟨-1, 0⟩, 0⟩ = some (1/8) := by
    rw [validHit]
    norm_num [cross2, EPS_DIR, EPS_POS, abs_le]
  have hB : validHit ⟨1/8, 1/2⟩ ⟨1, 0⟩ ⟨⟨3/4, 0⟩, ⟨3/4, 1⟩, ⟨-1, 0⟩, 1⟩ = some (5/8) := by
    rw [validHit]
    norm_num [cross2, EPS_DIR, EPS_POS, abs_le]
  have hFH : findHit ⟨1/8, 1/2⟩ ⟨1, 0⟩
      [⟨⟨1/4, 0⟩, ⟨1/4, 1⟩, ⟨-1, 0⟩, 0⟩, ⟨⟨3/4, 0⟩, ⟨3/4, 1⟩, ⟨-1, 0⟩, 1⟩] =
      some ⟨1/8, 0, 0, ⟨-1, 0⟩⟩ := by
    rw [findHit, findHitAux_cons, considerWall_of_valid_none _ _ _ _ _ hA]
    dsimp only
    rw [findHitAux_cons, considerWall_of_valid_some _ _ _ _ _ _ hB,
      if_neg (by norm_num [TIE_EPS, abs_le]), findHitAux_nil]
  have hsep : List.Pairwise (SepHits ⟨1/8, 1/2⟩ ⟨1, 0⟩)
      [⟨⟨1/4, 0⟩, ⟨1/4, 1⟩, ⟨-1, 0⟩, 0⟩, ⟨⟨3/4, 0⟩, ⟨3/4, 1⟩, ⟨-1, 0⟩, 1⟩] := by
    refine List.Pairwise.cons ?_ (by simp)
    intro b hb
    rw [List.mem_singleton] at hb
    subst hb
    intro t1 t2 h1 h2
    rw [hA] at h1
    rw [hB] at h2
    obtain rfl := Option.some.inj h1
    obtain rfl := Option.some.inj h2
    rw [lt_abs]
    right
    norm_num [TIE_EPS]
  have hT1 : validHit ⟨0, 0⟩ ⟨1, 0⟩ ⟨⟨1/2, -1⟩, ⟨1/2, 1⟩, ⟨-1, 0⟩, 9⟩ = some (1/2) := by
    rw [validHit]
    norm_num [cross2, EPS_DIR, EPS_POS, abs_le]
  have hT2 : validHit ⟨0, 0⟩ ⟨1, 0⟩ ⟨⟨1/2, -1⟩, ⟨1/2, 1⟩, ⟨-1, 0⟩, 1⟩ = some (1/2) := by
    rw [validHit]
    norm_num [cross2, EPS_DIR, EPS_POS, abs_le]
  have hFHT : findHit ⟨0, 0⟩ ⟨1, 0⟩
      [⟨⟨1/2, -1⟩, ⟨1/2, 1⟩, ⟨-1, 0⟩, 9⟩, ⟨⟨1/2, -1⟩, ⟨1/2, 1⟩, ⟨-1, 0⟩, 1⟩] =
      some ⟨1/2, 1, 1, ⟨-1, 0⟩⟩ := by
    rw [findHit, findHitAux_cons, considerWall_of_valid_none _ _ _ _ _ hT1]
    dsimp only
    rw [findHitAux_cons, considerWall_of_valid_some _ _ _ _ _ _ hT2,
      if_pos (by norm_num [TIE_EPS, abs_le]), findHitAux_nil]
  have htied : List.Pairwise (TiedHits ⟨0, 0⟩ ⟨1, 0⟩)
      [⟨⟨1/2, -1⟩, ⟨1/2, 1⟩, ⟨-1, 0⟩, 9⟩, ⟨⟨1/2, -1⟩, ⟨1/2, 1⟩, ⟨-1, 0⟩, 1⟩] := by
    refine List.Pairwise.cons ?_ (by simp)
    intro b hb
    rw [List.mem_singleton] at hb
    subst hb
    intro t1 t2 h1 h2
    rw [hT1] at h1
    rw [hT2] at h2
    obtain rfl := Option.some.inj h1
    obtain rfl := Option.some.inj h2
    norm_num [TIE_EPS, abs_le]
  constructor
  · exact (earliest_hit_selection ⟨1/8, 1/2⟩ ⟨1, 0⟩ _).1 hsep _ hFH
      ⟨⟨3/4, 0⟩, ⟨3/4, 1⟩, ⟨-1, 0⟩, 1⟩ (by simp) (5/8) hB
  · exact (earliest_hit_selection ⟨0, 0⟩ ⟨1, 0⟩ _).2 htied _ hFHT

/-- The four wall segments produced by `add_inward_box 0 1 0 1 100`. -/
def boxWalls : List WallSegment :=
  [⟨⟨0, 0⟩, ⟨1, 0⟩, ⟨0, 1⟩, 100⟩,
   ⟨⟨1, 0⟩, ⟨1, 1⟩, ⟨-1, 0⟩, 101⟩,
   ⟨⟨1, 1⟩, ⟨0, 1⟩, ⟨0, -1⟩, 102⟩,
   ⟨⟨0, 1⟩, ⟨0, 0⟩, ⟨1, 0⟩, 103⟩]

theorem norm_unit_up : Vec2.norm ⟨0, 1⟩ = 1 := by
  show Real.sqrt (0 * 0 + 1 * 1) = 1
  rw [show (0 : ℝ) * 0 + 1 * 1 = 1 by norm_num, Real.sqrt_one]

theorem norm_unit_left : Vec2.norm ⟨-1, 0⟩ = 1 := by
  show Real.sqrt (-1 * -1 + 0 * 0) = 1
  rw [show (-1 : ℝ) * -1 + 0 * 0 = 1 by norm_num, Real.sqrt_one]

theorem norm_unit_down : Vec2.norm ⟨0, -1⟩ = 1 := by
  show Real.sqrt (0 * 0 + -1 * -1) = 1
  rw [show (0 : ℝ) * 0 + -1 * -1 = 1 by norm_num, Real.sqrt_one]

theorem norm_unit_right : Vec2.norm ⟨1, 0⟩ = 1 := by
  show Real.sqrt (1 * 1 + 0 * 0) = 1
  rw [show (1 : ℝ) * 1 + 0 * 0 = 1 by norm_num, Real.sqrt_one]

theorem add_inward_box_eval :
    ReflectingWorld.add_inward_box 0 1 0 1 100 = Except.ok boxWalls := by
  have hseg1 : ReflectingWorld.add_segment ⟨0, 0⟩ ⟨1, 0⟩ ⟨0, 1⟩ 100 =
      Except.ok ⟨⟨0, 0⟩, ⟨1, 0⟩, ⟨0, 1⟩, 100⟩ := by
    rw [add_segment_ok _ _ _ _ (by norm_num [EPS_DIR, abs_le]) (by rw [norm_unit_up]; norm_num [EPS_DIR]),
      normalize_of_norm_one _ norm_unit_up]
  have hseg2 : ReflectingWorld.add_segment ⟨1, 0⟩ ⟨1, 1⟩ ⟨-1, 0⟩ (100 + 1) =
      Except.ok ⟨⟨1, 0⟩, ⟨1, 1⟩, ⟨-1, 0⟩, 100 + 1⟩ := by
    rw [add_segment_ok _ _ _ _ (by norm_num [EPS_DIR, abs_le]) (by rw [norm_unit_left]; norm_num [EPS_DIR]),
      normalize_of_norm_one _ norm_unit_left]
  have hseg3 : ReflectingWorld.add_segment ⟨1, 1⟩ ⟨0, 1⟩ ⟨0, -1⟩ (100 + 2) =
      Except.ok ⟨⟨1, 1⟩, ⟨0, 1⟩, ⟨0, -1⟩, 100 + 2⟩ := by
    rw [add_segment_ok _ _ _ _ (by norm_num [EPS_DIR, abs_le]) (by rw [norm_unit_down]; norm_num [EPS_DIR]),
      normalize_of_norm_one _ norm_unit_down]
  have hseg4 : ReflectingWorld.add_segment ⟨0, 1⟩ ⟨0, 0⟩ ⟨1, 0⟩ (100 + 3) =
      Except.ok ⟨⟨0, 1⟩, ⟨0, 0⟩, ⟨1, 0⟩, 100 + 3⟩ := by
    rw [add_segment_ok _ _ _ _ (by norm_num [EPS_DIR, abs_le]) (by rw [norm_unit_right]; norm_num [EPS_DIR]),
      normalize_of_norm_one _ norm_unit_right]
  rw [ReflectingWorld.add_inward_box, if_pos (by norm_num)]
  rw [hseg1, hseg2, hseg3, hseg4]
  rfl

/-- Inversion of a successful wall intersection test: the guards hold and the
contact point `p + t·v` lies on the wall's supporting line within the
`u`-tolerance window of the segment. -/
theorem validHit_some_inv (p v : Vec2) (w : WallSegment) (t : ℝ)
    (h : validHit p v w = some t) :
    ∃ u : ℝ, -EPS_POS ≤ u ∧ u ≤ 1 + EPS_POS ∧ EPS_POS < t ∧ t ≤ 1 + EPS_POS ∧
      p + t • v = w.p0 + u • (w.p1 - w.p0) := by
  simp only [validHit] at h
  split at h
  · cases h
  next hden =>
    split at h
    · cases h
    next ht2 =>
      split at h
      · cases h
      next hu2 =>
        have hteq := Option.some.inj h
        push_neg at ht2 hu2
        have hd0 : cross2 v (w.p1 - w.p0) ≠ 0 := by
          intro h0
          apply hden
          rw [h0, abs_zero]
          norm_num [EPS_DIR]
        refine ⟨cross2 (w.p0 - p) v / cross2 v (w.p1 - w.p0),
          hu2.1, hu2.2, ?_, ?_, ?_⟩
        · rw [← hteq]
          exact ht2.1
        · rw [← hteq]
          exact ht2.2
        · rw [← hteq]
          apply Vec2.ext
          · simp only [Vec2.add_x, Vec2.smul_x]
            field_simp
            simp only [cross2, Vec2.sub_x, Vec2.sub_y]
            ring
          · simp only [Vec2.add_y, Vec2.smul_y]
            field_simp
            simp only [cross2, Vec2.sub_x, Vec2.sub_y]
            ring

/-- Membership in the unit box enlarged by the positional tolerance
`EPS_POS = 1e-12` on every side. -/
def inUnitBoxEps (q : Vec2) : Prop :=
  -EPS_POS ≤ q.x ∧ q.x ≤ 1 + EPS_POS ∧ -EPS_POS ≤ q.y ∧ q.y ≤ 1 + EPS_POS

theorem box_hit_step (p v : Vec2) (h : HitCandidate)
    (hfh : findHit p v boxWalls = some h) :
    inUnitBoxEps (p + h.t • v + EPS_POS • h.n) := by
  obtain ⟨w, hw, hv, hid, hn⟩ := findHit_sound p v boxWalls h hfh
  obtain ⟨u, hu1, hu2, ht1, ht2, heq⟩ := validHit_some_inv p v w h.t hv
  have heps : (0 : ℝ) < EPS_POS := by norm_num [EPS_POS]
  rw [hn]
  simp only [boxWalls, List.mem_cons, List.not_mem_nil, or_false] at hw
  rcases hw with rfl | rfl | rfl | rfl <;>
    · have hx := congrArg Vec2.x heq
      have hy := congrArg Vec2.y heq
      simp only [Vec2.add_x, Vec2.add_y, Vec2.smul_x, Vec2.smul_y,
        Vec2.sub_x, Vec2.sub_y] at hx hy
      refine ⟨?_, ?_, ?_, ?_⟩ <;>
        simp only [Vec2.add_x, Vec2.add_y, Vec2.smul_x, Vec2.smul_y] <;>
        linarith [hu1, hu2, ht1, ht2, heps, hx, hy]

/-- Trace predicate for C1: along the run of the bounce loop, whenever the
scan finds no wall hit the full remaining displacement keeps the point inside
the tolerance-enlarged unit box (i.e. the epsilon guards reject no escaping
crossing). -/
def SafeBoxRun (walls : List WallSegment) : ℕ → Vec2 → Vec2 → Prop
  | 0, _, _ => True
  | n + 1, p, v =>
    (findHit p v walls = none → inUnitBoxEps (p + v)) ∧
    ∀ h, findHit p v walls = some h →
      ¬(|(reflect_across_unit_normal ((1 - h.t) • v) h.n).x| ≤ EPS_DIR ∧
        |(reflect_across_unit_normal ((1 - h.t) • v) h.n).y| ≤ EPS_DIR) →
      SafeBoxRun walls n (p + h.t • v + EPS_POS • h.n)
        (reflect_across_unit_normal ((1 - h.t) • v) h.n)

theorem advanceLoop_box :
    ∀ (n : ℕ) (p v : Vec2), inUnitBoxEps p → SafeBoxRun boxWalls n p v →
      inUnitBoxEps (advanceLoop boxWalls n p v) := by
  intro n
  induction n with
  | zero => intro p v hp _; exact hp
  | succ n ih =>
    intro p v hp hrun
    obtain ⟨hnone, hsome⟩ := hrun
    cases hfh : findHit p v boxWalls with
    | none =>
      rw [advanceLoop_succ_none _ _ _ _ hfh]
      exact hnone hfh
    | some h =>
      rw [advanceLoop_succ_some _ _ _ _ h hfh]
      have hstep := box_hit_step p v h hfh
      by_cases hsm : |(reflect_across_unit_normal ((1 - h.t) • v) h.n).x| ≤ EPS_DIR ∧
          |(reflect_across_unit_normal ((1 - h.t) • v) h.n).y| ≤ EPS_DIR
      · rw [if_pos hsm]
        exact hstep
      · rw [if_neg hsm]
        exact ih _ _ hstep (hsome h hfh hsm)

/-- C1 counterexample: the start `(1/2, 1e-15)` lies inside `[0,1]×[0,1]`,
but with displacement `(0, -1)` against the inward box built by
`add_inward_box`, the bottom-wall crossing is rejected by the `t ≤ EPS_POS`
guard (the start is too close to the wall relative to the displacement) and
all other walls are parallel or behind, so the particle tunnels through the
floor: the final position has `y = 1e-15 - 1 < 0`, outside `[0,1]`. -/
theorem box_containment_counterexample :
    ReflectingWorld.add_inward_box 0 1 0 1 100 = Except.ok boxWalls ∧
    (0 ≤ (1/2 : ℝ) ∧ (1/2 : ℝ) ≤ 1 ∧ 0 ≤ (1/10^15 : ℝ) ∧ (1/10^15 : ℝ) ≤ 1) ∧
    (advance_with_reflections ⟨1/2, 1/10^15⟩ ⟨0, -1⟩ boxWalls).y < 0 := by
  have h1 : validHit ⟨1/2, 1/10^15⟩ ⟨0, -1⟩ ⟨⟨0, 0⟩, ⟨1, 0⟩, ⟨0, 1⟩, 100⟩ = none := by
    rw [validHit]
    norm_num [cross2, EPS_DIR, EPS_POS, abs_le]
  have h2 : validHit ⟨1/2, 1/10^15⟩ ⟨0, -1⟩ ⟨⟨1, 0⟩, ⟨1, 1⟩, ⟨-1, 0⟩, 101⟩ = none := by
    rw [validHit]
    norm_num [cross2, EPS_DIR, EPS_POS, abs_le]
  have h3 : validHit ⟨1/2, 1/10^15⟩ ⟨0, -1⟩ ⟨⟨1, 1⟩, ⟨0, 1⟩, ⟨0, -1⟩, 102⟩ = none := by
    rw [validHit]
    norm_num [cross2, EPS_DIR, EPS_POS, abs_le]
  have h4 : validHit ⟨1/2, 1/10^15⟩ ⟨0, -1⟩ ⟨⟨0, 1⟩, ⟨0, 0⟩, ⟨1, 0⟩, 103⟩ = none := by
    rw [validHit]
    norm_num [cross2, EPS_DIR, EPS_POS, abs_le]
  have hFH : findHit ⟨1/2, 1/10^15⟩ ⟨0, -1⟩ boxWalls = none := by
    simp only [boxWalls]
    rw [findHit, findHitAux_cons, considerWall_of_invalid _ _ _ _ _ h1,
      findHitAux_cons, considerWall_of_invalid _ _ _ _ _ h2,
      findHitAux_cons, considerWall_of_invalid _ _ _ _ _ h3,
      findHitAux_cons, considerWall_of_invalid _ _ _ _ _ h4, findHitAux_nil]
  refine ⟨add_inward_box_eval, by norm_num, ?_⟩
  rw [advance_of_not_small _ _ _ (by norm_num [EPS_DIR, abs_le]),
    show MAX_REFLECTIONS = 63 + 1 from rfl,
    advanceLoop_succ_none _ _ _ _ hFH]
  show (1 : ℝ)/10^15 + -1 < 0
  norm_num

/-- C1 (amended): for every start position in the tolerance-enlarged unit
box and every displacement, if along the run no escaping crossing is
rejected by the epsilon guards (whenever a bounce iteration finds no wall
hit, the remaining displacement keeps the point inside the enlarged box),
then the final position returned by `advance_with_reflections` lies in
`[-1e-12, 1+1e-12] × [-1e-12, 1+1e-12]`.  The original claim fails: the
`t ≤ EPS_POS` guard can reject a genuine crossing for starts within about
`1e-12·‖v‖` of a wall, letting the particle tunnel out, and contact points
may overshoot the box by up to the `1e-12` endpoint tolerance. -/
theorem box_containment (x d : Vec2) (W : List WallSegment)
    (hW : ReflectingWorld.add_inward_box 0 1 0 1 100 = Except.ok W)
    (hx : inUnitBoxEps x) (hrun : SafeBoxRun W MAX_REFLECTIONS x d) :
    inUnitBoxEps (advance_with_reflections x d W) := by
  rw [add_inward_box_eval] at hW
  have hWb : W = boxWalls := (Except.ok.inj hW).symm
  subst hWb
  by_cases hsmall : |d.x| ≤ EPS_DIR ∧ |d.y| ≤ EPS_DIR
  · rw [advance_of_small _ _ _ hsmall]
    exact hx
  · rw [advance_of_not_small _ _ _ hsmall]
    exact advanceLoop_box MAX_REFLECTIONS x d hx hrun

/-- Witness for the amended C1 theorem at the start `(1/2, 1/2)` with
displacement `(1/4, 0)` inside the box built by `add_inward_box`. -/
theorem box_containment_witness :
    inUnitBoxEps (advance_with_reflections ⟨1/2, 1/2⟩ ⟨1/4, 0⟩ boxWalls) := by
  have h1 : validHit ⟨1/2, 1/2⟩ ⟨1/4, 0⟩ ⟨⟨0, 0⟩, ⟨1, 0⟩, ⟨0, 1⟩, 100⟩ = none := by
    rw [validHit]
    norm_num [cross2, EPS_DIR, EPS_POS, abs_le]
  have h2 : validHit ⟨1/2, 1/2⟩ ⟨1/4, 0⟩ ⟨⟨1, 0⟩, ⟨1, 1⟩, ⟨-1, 0⟩, 101⟩ = none := by
    rw [validHit]
    norm_num [cross2, EPS_DIR, EPS_POS, abs_le]
  have h3 : validHit ⟨1/2, 1/2⟩ ⟨1/4, 0⟩ ⟨⟨1, 1⟩, ⟨0, 1⟩, ⟨0, -1⟩, 102⟩ = none := by
    rw [validHit]
    norm_num [cross2, EPS_DIR, EPS_POS, abs_le]
  have h4 : validHit ⟨1/2, 1/2⟩ ⟨1/4, 0⟩ ⟨⟨0, 1⟩, ⟨0, 0⟩, ⟨1, 0⟩, 103⟩ = none := by
    rw [validHit]
    norm_num [cross2, EPS_DIR, EPS_POS, abs_le]
  have hFH : findHit ⟨1/2, 1/2⟩ ⟨1/4, 0⟩ boxWalls = none := by
    simp only [boxWalls]
    rw [findHit, findHitAux_cons, considerWall_of_invalid _ _ _ _ _ h1,
      findHitAux_cons, considerWall_of_invalid _ _ _ _ _ h2,
      findHitAux_cons, considerWall_of_invalid _ _ _ _ _ h3,
      findHitAux_cons, considerWall_of_invalid _ _ _ _ _ h4, findHitAux_nil]
  refine box_containment ⟨1/2, 1/2⟩ ⟨1/4, 0⟩ boxWalls add_inward_box_eval
    (by refine ⟨?_, ?_, ?_, ?_⟩ <;> norm_num [EPS_POS]) ?_
  refine ⟨?_, ?_⟩
  · intro _
    refine ⟨?_, ?_, ?_, ?_⟩ <;>
      simp only [Vec2.add_x, Vec2.add_y] <;>
      norm_num [EPS_POS]
  · intro h hfh
    rw [hFH] at hfh
    cases hfh

/-- One bounce iteration as a total step function on (position, remaining
displacement) pairs, used to state the bounce-cap truncation of C5: on a hit,
move to the contact point, nudge, and reflect the unconsumed displacement; on
no hit, absorb the full displacement. -/
def stepHit (walls : List WallSegment) (s : Vec2 × Vec2) : Vec2 × Vec2 :=
  match findHit s.1 s.2 walls with
  | none => (s.1 + s.2, ⟨0, 0⟩)
  | some h => (s.1 + h.t • s.2 + EPS_POS • h.n,
      reflect_across_unit_normal ((1 - h.t) • s.2) h.n)

/-- Trace predicate for C5: for the given number of iterations, every bounce
iteration finds a wall hit and the reflected remaining displacement stays
above the componentwise epsilon, so the loop never stops early. -/
def AlwaysBounces (walls : List WallSegment) : ℕ → Vec2 → Vec2 → Prop
  | 0, _, _ => True
  | n + 1, p, v =>
    ∃ h, findHit p v walls = some h ∧
      ¬(|(reflect_across_unit_normal ((1 - h.t) • v) h.n).x| ≤ EPS_DIR ∧
        |(reflect_across_unit_normal ((1 - h.t) • v) h.n).y| ≤ EPS_DIR) ∧
      AlwaysBounces walls n (p + h.t • v + EPS_POS • h.n)
        (reflect_across_unit_normal ((1 - h.t) • v) h.n)

theorem advanceLoop_iterate (walls : List WallSegment) :
    ∀ (n : ℕ) (p v : Vec2), AlwaysBounces walls n p v →
      advanceLoop walls n p v = ((stepHit walls)^[n] (p, v)).1 := by
  intro n
  induction n with
  | zero => intro p v _; rfl
  | succ n ih =>
    intro p v hab
    obtain ⟨h, hfh, hns, hrec⟩ := hab
    rw [advanceLoop_succ_some _ _ _ _ h hfh, if_neg hns, Function.iterate_succ_apply]
    have hstep : stepHit walls (p, v) = (p + h.t • v + EPS_POS • h.n,
        reflect_across_unit_normal ((1 - h.t) • v) h.n) := by
      simp [stepHit, hfh]
    rw [hstep]
    exact ih _ _ hrec

/-- C5: the bounce loop processes at most `MAX_REFLECTIONS = 64` iterations
(the embedding recurses on exactly that budget, so termination is
structural), and when every one of the 64 iterations bounces without
exhausting the displacement, the returned position is exactly the position
after the 64th bounce step — the still unconsumed displacement (the second
component of the iterated step) is discarded rather than applied, and no
error is signalled. -/
theorem bounce_cap_truncation (x d : Vec2) (walls : List WallSegment)
    (hd : ¬(|d.x| ≤ EPS_DIR ∧ |d.y| ≤ EPS_DIR))
    (hab : AlwaysBounces walls MAX_REFLECTIONS x d) :
    advance_with_reflections x d walls = ((stepHit walls)^[MAX_REFLECTIONS] (x, d)).1 := by
  rw [advance_of_not_small _ _ _ hd]
  exact advanceLoop_iterate walls MAX_REFLECTIONS x d hab

/-- Two parallel reflecting walls at `x = 0` and `x = 1`, used to produce a
run that exhausts the bounce cap. -/
def pingWalls : List WallSegment :=
  [⟨⟨0, 0⟩, ⟨0, 1⟩, ⟨1, 0⟩, 0⟩, ⟨⟨1, 0⟩, ⟨1, 1⟩, ⟨-1, 0⟩, 1⟩]

theorem validHit_eq_some (p v : Vec2) (w : WallSegment) (t : ℝ)
    (hden : ¬ |cross2 v (w.p1 - w.p0)| ≤ EPS_DIR)
    (ht : cross2 (w.p0 - p) (w.p1 - w.p0) / cross2 v (w.p1 - w.p0) = t)
    (ht1 : ¬(t ≤ EPS_POS ∨ 1 + EPS_POS < t))
    (hu : ¬(cross2 (w.p0 - p) v / cross2 v (w.p1 - w.p0) < -EPS_POS ∨
        1 + EPS_POS < cross2 (w.p0 - p) v / cross2 v (w.p1 - w.p0))) :
    validHit p v w = some t := by
  simp only [validHit]
  rw [if_neg hden, ht, if_neg ht1, if_neg hu]

theorem validHit_eq_none_of_t (p v : Vec2) (w : WallSegment)
    (hden : ¬ |cross2 v (w.p1 - w.p0)| ≤ EPS_DIR)
    (ht1 : cross2 (w.p0 - p) (w.p1 - w.p0) / cross2 v (w.p1 - w.p0) ≤ EPS_POS ∨
      1 + EPS_POS < cross2 (w.p0 - p) (w.p1 - w.p0) / cross2 v (w.p1 - w.p0)) :
    validHit p v w = none := by
  simp only [validHit]
  rw [if_neg hden, if_pos ht1]

theorem validHit_ping_L0 (w : ℝ) (hw : 2 ≤ w) (h200 : w ≤ 200) :
    validHit ⟨1 - EPS_POS, 1/2⟩ ⟨-w, 0⟩ ⟨⟨0, 0⟩, ⟨0, 1⟩, ⟨1, 0⟩, 0⟩ =
      some ((1 - EPS_POS) / w) := by
  have he : EPS_POS = (1 : ℝ) / 10 ^ 12 := rfl
  have hw0 : (0 : ℝ) < w := by linarith
  have hwne : w ≠ 0 := ne_of_gt hw0
  have hc : cross2 ⟨-w, 0⟩ ((⟨0, 1⟩ : Vec2) - ⟨0, 0⟩) = -w := by
    simp [cross2]
  have hca : cross2 ((⟨0, 0⟩ : Vec2) - ⟨1 - EPS_POS, 1/2⟩) ((⟨0, 1⟩ : Vec2) - ⟨0, 0⟩) =
      EPS_POS - 1 := by
    simp [cross2]
  have hcu : cross2 ((⟨0, 0⟩ : Vec2) - ⟨1 - EPS_POS, 1/2⟩) ⟨-w, 0⟩ = -(w / 2) := by
    simp [cross2]
    ring
  refine validHit_eq_some _ _ _ _ ?_ ?_ ?_ ?_
  · rw [hc, abs_neg, abs_of_pos hw0]
    rw [show EPS_DIR = (1 : ℝ) / 10 ^ 12 from rfl]
    intro hcon
    linarith
  · rw [hca, hc, div_eq_div_iff (neg_ne_zero.mpr hwne) hwne]
    ring
  · rintro (hcon | hcon)
    · rw [div_le_iff₀ hw0, he] at hcon
      linarith
    · rw [lt_div_iff₀ hw0, he] at hcon
      linarith
  · rw [hcu, hc]
    have hu12 : -(w / 2) / -w = 1 / 2 := by
      field_simp
      ring
    rw [hu12]
    rintro (hcon | hcon)
    · rw [he] at hcon
      linarith
    · rw [he] at hcon
      linarith

theorem validHit_ping_L1 (w : ℝ) (hw : 2 ≤ w) (_h200 : w ≤ 200) :
    validHit ⟨1 - EPS_POS, 1/2⟩ ⟨-w, 0⟩ ⟨⟨1, 0⟩, ⟨1, 1⟩, ⟨-1, 0⟩, 1⟩ = none := by
  have he : EPS_POS = (1 : ℝ) / 10 ^ 12 := rfl
  have hw0 : (0 : ℝ) < w := by linarith
  have hc : cross2 ⟨-w, 0⟩ ((⟨1, 1⟩ : Vec2) - ⟨1, 0⟩) = -w := by
    simp [cross2]
  have hca : cross2 ((⟨1, 0⟩ : Vec2) - ⟨1 - EPS_POS, 1/2⟩) ((⟨1, 1⟩ : Vec2) - ⟨1, 0⟩) =
      EPS_POS := by
    simp [cross2]
  refine validHit_eq_none_of_t _ _ _ ?_ ?_
  · rw [hc, abs_neg, abs_of_pos hw0]
    rw [show EPS_DIR = (1 : ℝ) / 10 ^ 12 from rfl]
    intro hcon
    linarith
  · left
    rw [hca, hc, div_neg, he]
    have hpos : (0 : ℝ) < (1 : ℝ) / 10 ^ 12 / w := by positivity
    linarith

theorem validHit_ping_R1 (w : ℝ) (hw : 2 ≤ w) (h200 : w ≤ 200) :
    validHit ⟨EPS_POS, 1/2⟩ ⟨w, 0⟩ ⟨⟨1, 0⟩, ⟨1, 1⟩, ⟨-1, 0⟩, 1⟩ =
      some ((1 - EPS_POS) / w) := by
  have he : EPS_POS = (1 : ℝ) / 10 ^ 12 := rfl
  have hw0 : (0 : ℝ) < w := by linarith
  have hwne : w ≠ 0 := ne_of_gt hw0
  have hc : cross2 ⟨w, 0⟩ ((⟨1, 1⟩ : Vec2) - ⟨1, 0⟩) = w := by
    simp [cross2]
  have hca : cross2 ((⟨1, 0⟩ : Vec2) - ⟨EPS_POS, 1/2⟩) ((⟨1, 1⟩ : Vec2) - ⟨1, 0⟩) =
      1 - EPS_POS := by
    simp [cross2]
  have hcu : cross2 ((⟨1, 0⟩ : Vec2) - ⟨EPS_POS, 1/2⟩) ⟨w, 0⟩ = w / 2 := by
    simp [cross2]
    ring
  refine validHit_eq_some _ _ _ _ ?_ ?_ ?_ ?_
  · rw [hc, abs_of_pos hw0]
    rw [show EPS_DIR = (1 : ℝ) / 10 ^ 12 from rfl]
    intro hcon
    linarith
  · rw [hca, hc]
  · rintro (hcon | hcon)
    · rw [div_le_iff₀ hw0, he] at hcon
      linarith
    · rw [lt_div_iff₀ hw0, he] at hcon
      linarith
  · rw [hcu, hc]
    have hu12 : w / 2 / w = 1 / 2 := by
      field_simp
      ring
    rw [hu12]
    rintro (hcon | hcon)
    · rw [he] at hcon
      linarith
    · rw [he] at hcon
      linarith

theorem validHit_ping_R0 (w : ℝ) (hw : 2 ≤ w) (_h200 : w ≤ 200) :
    validHit ⟨EPS_POS, 1/2⟩ ⟨w, 0⟩ ⟨⟨0, 0⟩, ⟨0, 1⟩, ⟨1, 0⟩, 0⟩ = none := by
  have he : EPS_POS = (1 : ℝ) / 10 ^ 12 := rfl
  have hw0 : (0 : ℝ) < w := by linarith
  have hc : cross2 ⟨w, 0⟩ ((⟨0, 1⟩ : Vec2) - ⟨0, 0⟩) = w := by
    simp [cross2]
  have hca : cross2 ((⟨0, 0⟩ : Vec2) - ⟨EPS_POS, 1/2⟩) ((⟨0, 1⟩ : Vec2) - ⟨0, 0⟩) =
      -EPS_POS := by
    simp [cross2]
  refine validHit_eq_none_of_t _ _ _ ?_ ?_
  · rw [hc, abs_of_pos hw0]
    rw [show EPS_DIR = (1 : ℝ) / 10 ^ 12 from rfl]
    intro hcon
    linarith
  · left
    rw [hca, hc, neg_div, he]
    have hpos : (0 : ℝ) < (1 : ℝ) / 10 ^ 12 / w := by positivity
    linarith

theorem findHit_ping_L (w : ℝ) (hw : 2 ≤ w) (h200 : w ≤ 200) :
    findHit ⟨1 - EPS_POS, 1/2⟩ ⟨-w, 0⟩ pingWalls =
      some ⟨(1 - EPS_POS) / w, 0, 0, ⟨1, 0⟩⟩ := by
  simp only [pingWalls]
  rw [findHit, findHitAux_cons,
    considerWall_of_valid_none _ _ _ _ _ (validHit_ping_L0 w hw h200)]
  dsimp only
  rw [findHitAux_cons,
    considerWall_of_invalid _ _ _ _ _ (validHit_ping_L1 w hw h200), findHitAux_nil]

theorem findHit_ping_R (w : ℝ) (hw : 2 ≤ w) (h200 : w ≤ 200) :
    findHit ⟨EPS_POS, 1/2⟩ ⟨w, 0⟩ pingWalls =
      some ⟨(1 - EPS_POS) / w, 1, 1, ⟨-1, 0⟩⟩ := by
  simp only [pingWalls]
  rw [findHit, findHitAux_cons,
    considerWall_of_invalid _ _ _ _ _ (validHit_ping_R0 w hw h200)]
  rw [findHitAux_cons,
    considerWall_of_valid_none _ _ _ _ _ (validHit_ping_R1 w hw h200), findHitAux_nil]

theorem ping_step_L (w : ℝ) (hwne : w ≠ 0) :
    (⟨1 - EPS_POS, 1/2⟩ : Vec2) + ((1 - EPS_POS) / w) • ⟨-w, 0⟩ + EPS_POS • ⟨1, 0⟩ =
      (⟨EPS_POS, 1/2⟩ : Vec2) := by
  apply Vec2.ext
  · simp only [Vec2.add_x, Vec2.smul_x]
    field_simp
    ring
  · simp only [Vec2.add_y, Vec2.smul_y]
    ring

theorem ping_step_R (w : ℝ) (hwne : w ≠ 0) :
    (⟨EPS_POS, 1/2⟩ : Vec2) + ((1 - EPS_POS) / w) • ⟨w, 0⟩ + EPS_POS • ⟨-1, 0⟩ =
      (⟨1 - EPS_POS, 1/2⟩ : Vec2) := by
  apply Vec2.ext
  · simp only [Vec2.add_x, Vec2.smul_x]
    field_simp
    ring
  · simp only [Vec2.add_y, Vec2.smul_y]
    ring

theorem ping_reflect_L (w : ℝ) (hwne : w ≠ 0) :
    reflect_across_unit_normal ((1 - (1 - EPS_POS) / w) • ⟨-w, 0⟩) ⟨1, 0⟩ =
      (⟨w - 1 + EPS_POS, 0⟩ : Vec2) := by
  apply Vec2.ext
  · simp only [reflect_across_unit_normal, Vec2.dot, Vec2.sub_x, Vec2.sub_y,
      Vec2.smul_x, Vec2.smul_y]
    field_simp
    ring
  · simp only [reflect_across_unit_normal, Vec2.dot, Vec2.sub_x, Vec2.sub_y,
      Vec2.smul_x, Vec2.smul_y]
    ring

theorem ping_reflect_R (w : ℝ) (hwne : w ≠ 0) :
    reflect_across_unit_normal ((1 - (1 - EPS_POS) / w) • ⟨w, 0⟩) ⟨-1, 0⟩ =
      (⟨-(w - 1 + EPS_POS), 0⟩ : Vec2) := by
  apply Vec2.ext
  · simp only [reflect_across_unit_normal, Vec2.dot, Vec2.sub_x, Vec2.sub_y,
      Vec2.smul_x, Vec2.smul_y]
    field_simp
    ring
  · simp only [reflect_across_unit_normal, Vec2.dot, Vec2.sub_x, Vec2.sub_y,
      Vec2.smul_x, Vec2.smul_y]
    ring

theorem alwaysBounces_pingpong :
    ∀ (n : ℕ) (w : ℝ), (n : ℝ) + 1 ≤ w → w ≤ 200 →
      AlwaysBounces pingWalls n ⟨1 - EPS_POS, 1/2⟩ ⟨-w, 0⟩ ∧
      AlwaysBounces pingWalls n ⟨EPS_POS, 1/2⟩ ⟨w, 0⟩ := by
  intro n
  induction n with
  | zero => intro w _ _; exact ⟨trivial, trivial⟩
  | succ n ih =>
    intro w hlow h200
    have hn0 : (0 : ℝ) ≤ (n : ℝ) := Nat.cast_nonneg n
    have hcast : ((n + 1 : ℕ) : ℝ) = (n : ℝ) + 1 := by push_cast; ring
    rw [hcast] at hlow
    have hw2 : 2 ≤ w := by linarith
    have hw0 : (0 : ℝ) < w := by linarith
    have hwne : w ≠ 0 := ne_of_gt hw0
    have he : EPS_POS = (1 : ℝ) / 10 ^ 12 := rfl
    have hed : EPS_DIR = (1 : ℝ) / 10 ^ 12 := rfl
    have hlow' : (n : ℝ) + 1 ≤ w - 1 + EPS_POS := by
      rw [he]
      linarith
    have h200' : w - 1 + EPS_POS ≤ 200 := by
      rw [he]
      linarith
    have hns : ¬(|(⟨w - 1 + EPS_POS, 0⟩ : Vec2).x| ≤ EPS_DIR ∧
        |(⟨w - 1 + EPS_POS, 0⟩ : Vec2).y| ≤ EPS_DIR) := by
      rintro ⟨ha, -⟩
      have ha' : |w - 1 + EPS_POS| ≤ EPS_DIR := ha
      rw [abs_of_pos (by rw [he]; linarith), hed, he] at ha'
      linarith
    have hnsneg : ¬(|(⟨-(w - 1 + EPS_POS), 0⟩ : Vec2).x| ≤ EPS_DIR ∧
        |(⟨-(w - 1 + EPS_POS), 0⟩ : Vec2).y| ≤ EPS_DIR) := by
      rintro ⟨ha, -⟩
      have ha' : |-(w - 1 + EPS_POS)| ≤ EPS_DIR := ha
      rw [abs_neg, abs_of_pos (by rw [he]; linarith), hed, he] at ha'
      linarith
    constructor
    · refine ⟨⟨(1 - EPS_POS) / w, 0, 0, ⟨1, 0⟩⟩, findHit_ping_L w hw2 h200, ?_, ?_⟩
      · dsimp only
        rw [ping_reflect_L w hwne]
        exact hns
      · dsimp only
        rw [ping_step_L w hwne, ping_reflect_L w hwne]
        exact (ih (w - 1 + EPS_POS) hlow' h200').2
    · refine ⟨⟨(1 - EPS_POS) / w, 1, 1, ⟨-1, 0⟩⟩, findHit_ping_R w hw2 h200, ?_, ?_⟩
      · dsimp only
        rw [ping_reflect_R w hwne]
        exact hnsneg
      · dsimp only
        rw [ping_step_R w hwne, ping_reflect_R w hwne]
        exact (ih (w - 1 + EPS_POS) hlow' h200').1

theorem validHit_ping_S1 :
    validHit ⟨1/2, 1/2⟩ ⟨200, 0⟩ ⟨⟨1, 0⟩, ⟨1, 1⟩, ⟨-1, 0⟩, 1⟩ = some (1/400) := by
  rw [validHit]
  norm_num [cross2, EPS_DIR, EPS_POS, abs_le]

theorem validHit_ping_S0 :
    validHit ⟨1/2, 1/2⟩ ⟨200, 0⟩ ⟨⟨0, 0⟩, ⟨0, 1⟩, ⟨1, 0⟩, 0⟩ = none := by
  rw [validHit]
  norm_num [cross2, EPS_DIR, EPS_POS, abs_le]

theorem findHit_ping_S :
    findHit ⟨1/2, 1/2⟩ ⟨200, 0⟩ pingWalls = some ⟨1/400, 1, 1, ⟨-1, 0⟩⟩ := by
  simp only [pingWalls]
  rw [findHit, findHitAux_cons, considerWall_of_invalid _ _ _ _ _ validHit_ping_S0,
    findHitAux_cons, considerWall_of_valid_none _ _ _ _ _ validHit_ping_S1, findHitAux_nil]

theorem ping_step_S :
    (⟨1/2, 1/2⟩ : Vec2) + (1/400 : ℝ) • ⟨200, 0⟩ + EPS_POS • ⟨-1, 0⟩ =
      (⟨1 - EPS_POS, 1/2⟩ : Vec2) := by
  apply Vec2.ext
  · simp only [Vec2.add_x, Vec2.smul_x]
    norm_num
    ring
  · simp only [Vec2.add_y, Vec2.smul_y]
    norm_num

theorem ping_reflect_S :
    reflect_across_unit_normal ((1 - (1/400 : ℝ)) • ⟨200, 0⟩) ⟨-1, 0⟩ =
      (⟨-(399/2), 0⟩ : Vec2) := by
  apply Vec2.ext
  · simp only [reflect_across_unit_normal, Vec2.dot, Vec2.sub_x, Vec2.sub_y,
      Vec2.smul_x, Vec2.smul_y]
    norm_num
  · simp only [reflect_across_unit_normal, Vec2.dot, Vec2.sub_x, Vec2.sub_y,
      Vec2.smul_x, Vec2.smul_y]
    norm_num

/-- Witness for C5: between two walls at `x = 0` and `x = 1`, the start
`(1/2, 1/2)` with displacement `(200, 0)` bounces 64 times without
exhausting the displacement, and the result equals the position of the
64-fold iterated bounce step, with the leftover displacement discarded. -/
theorem bounce_cap_truncation_witness :
    advance_with_reflections ⟨1/2, 1/2⟩ ⟨200, 0⟩ pingWalls =
      ((stepHit pingWalls)^[MAX_REFLECTIONS] (⟨1/2, 1/2⟩, ⟨200, 0⟩)).1 := by
  refine bounce_cap_truncation ⟨1/2, 1/2⟩ ⟨200, 0⟩ pingWalls
    (by norm_num [EPS_DIR, abs_le]) ?_
  show AlwaysBounces pingWalls 64 ⟨1/2, 1/2⟩ ⟨200, 0⟩
  refine ⟨⟨1/400, 1, 1, ⟨-1, 0⟩⟩, findHit_ping_S, ?_, ?_⟩
  · dsimp only
    rw [ping_reflect_S]
    rintro ⟨ha, -⟩
    have ha' : |(-(399/2 : ℝ))| ≤ EPS_DIR := ha
    rw [abs_neg, abs_of_pos (by norm_num)] at ha'
    rw [show EPS_DIR = (1 : ℝ) / 10 ^ 12 from rfl] at ha'
    linarith
  · dsimp only
    rw [ping_step_S, ping_reflect_S]
    exact (alwaysBounces_pingpong 63 (399/2) (by norm_num) (by norm_num)).1

/-- C2 counterexample: for the start position `(0,0)` and the displacement
`(1e-13, 0)` against an empty scene, `advance_with_reflections` does not
return `x + d`: the componentwise early exit fires and returns `x`
unchanged, although `x + d ≠ x`. -/
theorem advance_empty_scene_counterexample :
    advance_with_reflections ⟨0, 0⟩ ⟨1 / 10 ^ 13, 0⟩ [] ≠
      (⟨0, 0⟩ : Vec2) + ⟨1 / 10 ^ 13, 0⟩ := by
  have h1 : advance_with_reflections ⟨0, 0⟩ ⟨1 / 10 ^ 13, 0⟩ [] = (⟨0, 0⟩ : Vec2) :=
    advance_of_small _ _ _ (by constructor <;> norm_num [EPS_DIR, abs_le])
  rw [h1]
  intro hEq
  have hx := congrArg Vec2.x hEq
  simp only [Vec2.add_x] at hx
  norm_num at hx

/-- C2 (amended): advancing against an empty scene yields exactly `x + d`
whenever the displacement escapes the componentwise early-exit test
`|d.x| ≤ 1e-12 ∧ |d.y| ≤ 1e-12`; displacements inside that box return the
position unchanged instead. -/
theorem advance_empty_scene (x d : Vec2)
    (h : ¬(|d.x| ≤ EPS_DIR ∧ |d.y| ≤ EPS_DIR)) :
    advance_with_reflections x d [] = x + d := by
  rw [advance_of_not_small x d [] h, show MAX_REFLECTIONS = 63 + 1 from rfl]
  exact advanceLoop_succ_none [] 63 x d (findHit_nil x d)

/-- Witness for the amended C2 theorem at the concrete input `x = (0,0)`,
`d = (1,0)`. -/
theorem advance_empty_scene_witness :
    advance_with_reflections ⟨0, 0⟩ ⟨1, 0⟩ [] = (⟨0, 0⟩ : Vec2) + ⟨1, 0⟩ :=
  advance_empty_scene ⟨0, 0⟩ ⟨1, 0⟩ (by norm_num [EPS_DIR])

/-- C3 counterexample: the displacement `(1e-12, 1e-12)` has Euclidean norm
strictly greater than the directional epsilon, yet the early-exit branch is
taken: against an empty scene the position comes back unchanged instead of
moving to `x + d`. -/
theorem small_displacement_early_exit_counterexample :
    EPS_DIR < Vec2.norm ⟨1 / 10 ^ 12, 1 / 10 ^ 12⟩ ∧
      advance_with_reflections ⟨0, 0⟩ ⟨1 / 10 ^ 12, 1 / 10 ^ 12⟩ [] = (⟨0, 0⟩ : Vec2) ∧
      (⟨0, 0⟩ : Vec2) + ⟨1 / 10 ^ 12, 1 / 10 ^ 12⟩ ≠ (⟨0, 0⟩ : Vec2) := by
  refine ⟨?_, ?_, ?_⟩
  · rw [Vec2.norm]
    rw [show EPS_DIR = (1 : ℝ) / 10 ^ 12 from rfl]
    rw [Real.lt_sqrt (by norm_num)]
    norm_num
  · exact advance_of_small _ _ _ (by constructor <;> norm_num [EPS_DIR, abs_le])
  · intro hEq
    have hx := congrArg Vec2.x hEq
    simp only [Vec2.add_x] at hx
    norm_num at hx

/-- C3 (amended): the early exit of `advance_with_reflections` tests the
displacement componentwise rather than by Euclidean norm.  If
`‖d‖ ≤ 1e-12` the position is returned unchanged (the original claim's
forward direction), and more generally the position is returned unchanged
whenever `|d.x| ≤ 1e-12` and `|d.y| ≤ 1e-12` — so the converse of the
original claim fails for displacements with norm in `(1e-12, √2·1e-12]`. -/
theorem small_displacement_early_exit (x d : Vec2) (walls : List WallSegment) :
    (Vec2.norm d ≤ EPS_DIR → advance_with_reflections x d walls = x) ∧
    ((|d.x| ≤ EPS_DIR ∧ |d.y| ≤ EPS_DIR) → advance_with_reflections x d walls = x) := by
  constructor
  · intro h
    refine advance_of_small x d walls ⟨?_, ?_⟩
    · calc |d.x| = Real.sqrt (d.x * d.x) := (Real.sqrt_mul_self_eq_abs d.x).symm
        _ ≤ Real.sqrt (d.x * d.x + d.y * d.y) :=
            Real.sqrt_le_sqrt (by nlinarith [mul_self_nonneg d.y])
        _ = Vec2.norm d := rfl
        _ ≤ EPS_DIR := h
    · calc |d.y| = Real.sqrt (d.y * d.y) := (Real.sqrt_mul_self_eq_abs d.y).symm
        _ ≤ Real.sqrt (d.x * d.x + d.y * d.y) :=
            Real.sqrt_le_sqrt (by nlinarith [mul_self_nonneg d.x])
        _ = Vec2.norm d := rfl
        _ ≤ EPS_DIR := h
  · exact advance_of_small x d walls

/-- Witness for the amended C3 theorem at `x = (1,2)`, `d = (1e-13, 0)`,
against a one-wall scene. -/
theorem small_displacement_early_exit_witness :
    advance_with_reflections ⟨1, 2⟩ ⟨1 / 10 ^ 13, 0⟩
      [⟨⟨0, 0⟩, ⟨1, 0⟩, ⟨0, 1⟩, 0⟩] = (⟨1, 2⟩ : Vec2) :=
  (small_displacement_early_exit ⟨1, 2⟩ ⟨1 / 10 ^ 13, 0⟩ _).1 (by
    have hnorm : Vec2.norm ⟨1 / 10 ^ 13, 0⟩ = |(1 : ℝ) / 10 ^ 13| := by
      rw [Vec2.norm,
        show ((1 : ℝ) / 10 ^ 13) * (1 / 10 ^ 13) + 0 * 0 = (1 / 10 ^ 13) * (1 / 10 ^ 13) by ring,
        Real.sqrt_mul_self_eq_abs]
    rw [hnorm, show EPS_DIR = (1 : ℝ) / 10 ^ 12 from rfl]
    norm_num [abs_le])

/-- C7: for a unit normal, the reflection operator is an involution,
preserves the Euclidean norm, and preserves the dot product with every
vector orthogonal to the normal (tangential invariance). -/
theorem reflect_unit_normal_properties (n v : Vec2) (hn : n.norm = 1) :
    reflect_across_unit_normal (reflect_across_unit_normal v n) n = v ∧
    (reflect_across_unit_normal v n).norm = v.norm ∧
    (∀ w : Vec2, w.dot n = 0 → (reflect_across_unit_normal v n).dot w = v.dot w) := by
  have hs : n.x * n.x + n.y * n.y = 1 := Real.sqrt_eq_one.mp hn
  refine ⟨?_, ?_, ?_⟩
  · apply Vec2.ext
    · simp only [reflect_across_unit_normal, Vec2.dot, Vec2.sub_x, Vec2.sub_y,
        Vec2.smul_x, Vec2.smul_y]
      linear_combination (4 * ((v.x * n.x + v.y * n.y) * n.x)) * hs
    · simp only [reflect_across_unit_normal, Vec2.dot, Vec2.sub_x, Vec2.sub_y,
        Vec2.smul_x, Vec2.smul_y]
      linear_combination (4 * ((v.x * n.x + v.y * n.y) * n.y)) * hs
  · rw [Vec2.norm, Vec2.norm]
    congr 1
    simp only [reflect_across_unit_normal, Vec2.dot, Vec2.sub_x, Vec2.sub_y,
      Vec2.smul_x, Vec2.smul_y]
    linear_combination (4 * ((v.x * n.x + v.y * n.y) * (v.x * n.x + v.y * n.y))) * hs
  · intro w hw
    simp only [Vec2.dot] at hw
    simp only [reflect_across_unit_normal, Vec2.dot, Vec2.sub_x, Vec2.sub_y,
      Vec2.smul_x, Vec2.smul_y]
    linear_combination (-(2 * (v.x * n.x + v.y * n.y))) * hw

/-- Witness for C7 at the concrete unit normal `(3/5, 4/5)` and vector
`(1, 2)`. -/
theorem reflect_unit_normal_properties_witness :
    reflect_across_unit_normal (reflect_across_unit_normal ⟨1, 2⟩ ⟨3/5, 4/5⟩) ⟨3/5, 4/5⟩ =
      (⟨1, 2⟩ : Vec2) ∧
    (reflect_across_unit_normal ⟨1, 2⟩ ⟨3/5, 4/5⟩).norm = Vec2.norm ⟨1, 2⟩ ∧
    (∀ w : Vec2, w.dot ⟨3/5, 4/5⟩ = 0 →
      (reflect_across_unit_normal ⟨1, 2⟩ ⟨3/5, 4/5⟩).dot w = Vec2.dot ⟨1, 2⟩ w) :=
  reflect_unit_normal_properties ⟨3/5, 4/5⟩ ⟨1, 2⟩ (by
    rw [Vec2.norm, show (3:ℝ)/5 * (3/5) + 4/5 * (4/5) = 1 by norm_num, Real.sqrt_one])

/-- C10: reflecting across the zero vector is the identity; in particular the
zero-vector sentinel produced by `Vec2::normalized` for inputs with norm at
or below the epsilon acts as the identity on the incident vector. -/
theorem reflect_zero_normal_identity (v w : Vec2) (eps : ℝ) :
    reflect_across_unit_normal v ⟨0, 0⟩ = v ∧
    (w.norm ≤ eps → reflect_across_unit_normal v (w.normalized eps) = v) := by
  constructor
  · apply Vec2.ext <;>
      simp only [reflect_across_unit_normal, Vec2.dot, Vec2.sub_x, Vec2.sub_y,
        Vec2.smul_x, Vec2.smul_y] <;>
      ring
  · intro h
    rw [Vec2.normalized, if_pos h]
    apply Vec2.ext <;>
      simp only [reflect_across_unit_normal, Vec2.dot, Vec2.sub_x, Vec2.sub_y,
        Vec2.smul_x, Vec2.smul_y] <;>
      ring

/-- Witness for C10 at the concrete incident vector `(3, 4)` and the sentinel
produced by normalizing the zero vector. -/
theorem reflect_zero_normal_identity_witness :
    reflect_across_unit_normal ⟨3, 4⟩ (⟨0, 0⟩ : Vec2) = (⟨3, 4⟩ : Vec2) ∧
    (reflect_across_unit_normal ⟨3, 4⟩ (Vec2.normalized ⟨0, 0⟩ (1 / 10 ^ 12)) =
      (⟨3, 4⟩ : Vec2)) :=
  ⟨(reflect_zero_normal_identity ⟨3, 4⟩ ⟨0, 0⟩ (1 / 10 ^ 12)).1,
   (reflect_zero_normal_identity ⟨3, 4⟩ ⟨0, 0⟩ (1 / 10 ^ 12)).2 (by
      rw [Vec2.norm]
      norm_num [Real.sqrt_zero])⟩

end

end sim
